import Mathlib

/-!
# Verification of `compute_probabilities.py`

A shallow embedding of the constraint-model builder and the exact enumeration
engine of `compute_probabilities.py`, together with proofs that relate the
engine's pruned depth-first search to a brute-force specification over all
permutations.

Modelling conventions:
* Python's arbitrary-precision integers are `ℤ` (no overflow in the source).
* The per-man bitmask `allowed[i]` of the engine's `Problem` is modelled as a
  Boolean predicate on `Fin n`; the `taken_mask` bitmask is a `Finset (Fin n)`.
  (The builder keeps the literal bitmask representation as `ℕ`.)
* `assignment` (a Python list with `-1` for unset) is `Fin n → Option (Fin n)`.
* The parallel lists `C`/`beams`/`sofar` of the search are a single list of
  pairs `(ceremony, running count)`.
* `SystemExit` / raised exceptions are `Option`/`Except` failures.
* The search's leaf-time mutations `total += 1` and
  `pair_counts[i][assignment[i]] += 1` are rendered by collecting the leaf
  assignments into a list and counting: `total` is its length and
  `pair_counts[i][j]` the number of collected leaves mapping `i` to `j`.
-/

deriving instance DecidableEq for Except

namespace AYT

/-! ## Engine data model (`Ceremony` and `Problem` dataclasses) -/

/-- A ceremony: an n×n 0/1 guess matrix plus the exact number of correct
guesses ("beams").  `beams` is an unconstrained integer, as in the source
(`int(beams)` with no range check). -/
structure Ceremony (n : ℕ) where
  matchups : Fin n → Fin n → Bool
  beams : ℤ

/-- The engine-level problem: round constraints, per-man candidate domains
(`allowed` bitmasks) and forced pairs from truth booths. -/
structure Problem (n : ℕ) where
  ceremonies : List (Ceremony n)
  allowed : Fin n → Fin n → Bool
  forced : Fin n → Option (Fin n)

variable {n : ℕ}

/-! ## Search primitives -/

/-- Number of already-assigned men whose assignment is a guessed pair of
ceremony `c` — the quantity the source computes into `sofar[k]` and updates
incrementally. -/
def assignedHits (A : Fin n → Option (Fin n)) (c : Ceremony n) : ℤ :=
  ((Finset.univ.filter fun i => ∃ j, A i = some j ∧ c.matchups i j = true).card : ℤ)

/-- `ub_additional`: upper bound on how many additional ceremony-`c` matches the
still-unassigned men can contribute (a man can contribute iff some guessed
woman of his is both allowed for him and still available). -/
def ubAdditional (p : Problem n) (c : Ceremony n) (avail : Finset (Fin n))
    (un : List (Fin n)) : ℤ :=
  ((un.filter fun i =>
      decide (∃ j, c.matchups i j = true ∧ p.allowed i j = true ∧ j ∈ avail)).length : ℤ)

/-- `candidates_mask = allowed[i] & ~taken_mask`, listed in index order. -/
def candList (p : Problem n) (taken : Finset (Fin n)) (i : Fin n) : List (Fin n) :=
  (List.finRange n).filter fun j => p.allowed i j && decide (j ∉ taken)

/-- `hits`: number of ceremonies whose guess matrix proposes the pair (i, j). -/
def hitsCount (p : Problem n) (i j : Fin n) : ℕ :=
  p.ceremonies.countP fun c => c.matchups i j

/-- `fanout`: number of still-unassigned men (among the initially unassigned
`un`) for whom woman `j` is also allowed. -/
def fanoutCount (p : Problem n) (A : Fin n → Option (Fin n)) (un : List (Fin n))
    (j : Fin n) : ℕ :=
  (un.filter fun ii => decide (A ii = none) && p.allowed ii j).length

/-- Candidate ordering: `key = (-hits, fanout)` ascending, i.e. descending by
hits and ascending by fanout on ties. -/
def ScoreLe (p : Problem n) (A : Fin n → Option (Fin n)) (un : List (Fin n))
    (i j₁ j₂ : Fin n) : Prop :=
  hitsCount p i j₂ < hitsCount p i j₁ ∨
    (hitsCount p i j₁ = hitsCount p i j₂ ∧
      fanoutCount p A un j₁ ≤ fanoutCount p A un j₂)

instance (p : Problem n) (A : Fin n → Option (Fin n)) (un : List (Fin n))
    (i : Fin n) : DecidableRel (ScoreLe p A un i) := fun j₁ j₂ =>
  inferInstanceAs (Decidable (hitsCount p i j₂ < hitsCount p i j₁ ∨
    (hitsCount p i j₁ = hitsCount p i j₂ ∧
      fanoutCount p A un j₁ ≤ fanoutCount p A un j₂)))

/-- The recursive search `dfs`.  Arguments mirror the source: the remaining
branching order, the partial assignment, the taken-women set, the list of
`(ceremony, sofar)` pairs and the list of initially-unassigned men.  Instead of
mutating accumulators it returns the list of leaf assignments reached. -/
def dfs (p : Problem n) : List (Fin n) → (Fin n → Option (Fin n)) →
    Finset (Fin n) → List (Ceremony n × ℤ) → List (Fin n) →
    List (Fin n → Option (Fin n))
  | [], A, _, state, _ =>
      -- terminal: consistent iff every sofar equals the beams exactly
      if state.all (fun cs => decide (cs.2 = cs.1.beams)) then [A] else []
  | i :: rest, A, taken, state, un =>
      match A i with
      | some _ =>
          -- man already forced: feasibility check only
          let avail := takenᶜ
          let curUn := un.filter fun ii => decide (A ii = none)
          if state.all (fun cs => decide (cs.2 ≤ cs.1.beams) &&
              decide (cs.1.beams ≤ cs.2 + ubAdditional p cs.1 avail curUn)) then
            dfs p rest A taken state un
          else []
      | none =>
          let cands := (candList p taken i).insertionSort (ScoreLe p A un i)
          cands.flatMap fun j =>
            -- reject j if some sofar[k] would exceed beams[k]
            if state.all (fun cs => !cs.1.matchups i j ||
                decide (cs.2 + 1 ≤ cs.1.beams)) then
              let nextTaken := insert j taken
              let avail := nextTakenᶜ
              let curUn := un.filter fun ii => decide (A ii = none) && decide (ii ≠ i)
              -- reject j if some beams[k] is no longer reachable
              if state.all (fun cs => decide (cs.1.beams ≤ cs.2 +
                  (if cs.1.matchups i j then 1 else 0) +
                  ubAdditional p cs.1 avail curUn)) then
                dfs p rest (Function.update A i (some j)) nextTaken
                  (state.map fun cs =>
                    (cs.1, cs.2 + (if cs.1.matchups i j then 1 else 0))) un
              else []
            else []

/-- Two forced pairs targeting the same woman make the seeding loop raise
`SystemExit` ("Woman … already taken by another forced pair"). -/
def forcedCollision (p : Problem n) : Prop :=
  ∃ i i' : Fin n, i ≠ i' ∧ ∃ j, p.forced i = some j ∧ p.forced i' = some j

instance (p : Problem n) : Decidable (forcedCollision p) :=
  inferInstanceAs (Decidable
    (∃ i i' : Fin n, i ≠ i' ∧ ∃ j, p.forced i = some j ∧ p.forced i' = some j))

/-- The taken-women mask after seeding the forced pairs. -/
def initTaken (p : Problem n) : Finset (Fin n) :=
  Finset.univ.filter fun j => ∃ i, p.forced i = some j

/-- `domain_size` used to sort the branching order. -/
def domainSize (p : Problem n) (i : Fin n) : ℕ :=
  match p.forced i with
  | some _ => 1
  | none => (Finset.univ.filter fun j =>
      p.allowed i j = true ∧ j ∉ initTaken p).card

/-- Branching order: men sorted ascending by remaining domain size. -/
def searchOrder (p : Problem n) : List (Fin n) :=
  (List.finRange n).insertionSort fun i₁ i₂ => domainSize p i₁ ≤ domainSize p i₂

/-- The initially-unassigned men, in index order. -/
def initUnassigned (p : Problem n) : List (Fin n) :=
  (List.finRange n).filter fun i => decide (p.forced i = none)

/-- The `n×n` all-zero matrix. -/
def zeroMatrix (n : ℕ) : List (List ℕ) :=
  (List.finRange n).map fun _ => (List.finRange n).map fun _ => 0

/-- The `pair_counts` matrix accumulated over the found solutions:
entry (i, j) counts the solutions assigning woman `j` to man `i`. -/
def countMatrix (sols : List (Fin n → Option (Fin n))) : List (List ℕ) :=
  (List.finRange n).map fun i =>
    (List.finRange n).map fun j => sols.countP fun b => decide (b i = some j)

/-- Matrix entry access `m[i][j]`. -/
def mEntry (m : List (List ℕ)) (i j : Fin n) : ℕ :=
  (m.getD i.val []).getD j.val 0

/-- `enumerate_consistent_matchings`.  Returns `none` where the source raises
`SystemExit` during forced-pair seeding, and otherwise `some (total,
pair_counts)`. -/
def enumerate_consistent_matchings (p : Problem n) :
    Option (ℕ × List (List ℕ)) :=
  if forcedCollision p then none
  else
    let A := p.forced
    let state := p.ceremonies.map fun c => (c, assignedHits A c)
    -- "impossible already": some sofar[k] exceeds beams[k]
    if state.any (fun cs => decide (cs.1.beams < cs.2)) then
      some (0, zeroMatrix n)
    else
      let sols := dfs p (searchOrder p) A (initTaken p) state (initUnassigned p)
      some (sols.length, countMatrix sols)

/-! ## Brute-force specification -/

/-- A bijection extends every forced pair. -/
def ExtendsForced (p : Problem n) (σ : Equiv.Perm (Fin n)) : Prop :=
  ∀ i j, p.forced i = some j → σ i = j

/-- A bijection meets every ceremony's exact required-correct count. -/
def RoundsExact (p : Problem n) (σ : Equiv.Perm (Fin n)) : Prop :=
  ∀ c ∈ p.ceremonies,
    ((Finset.univ.filter fun i => c.matchups i (σ i) = true).card : ℤ) = c.beams

/-- Consistency as the code enforces it: forced pairs extended, every
*non-forced* man mapped inside his domain, and all rounds exact. -/
def CodeConsistent (p : Problem n) (σ : Equiv.Perm (Fin n)) : Prop :=
  ExtendsForced p σ ∧ (∀ i, p.forced i = none → p.allowed i (σ i) = true) ∧
    RoundsExact p σ

/-- Consistency as the specification words it: forced pairs extended, *every*
man mapped inside his domain, and all rounds exact. -/
def SpecConsistent (p : Problem n) (σ : Equiv.Perm (Fin n)) : Prop :=
  ExtendsForced p σ ∧ (∀ i, p.allowed i (σ i) = true) ∧ RoundsExact p σ

/-- Consistency as the glossary words it (forced pairs and rounds only). -/
def GlossaryConsistent (p : Problem n) (σ : Equiv.Perm (Fin n)) : Prop :=
  ExtendsForced p σ ∧ RoundsExact p σ

instance (p : Problem n) (σ : Equiv.Perm (Fin n)) : Decidable (ExtendsForced p σ) :=
  inferInstanceAs (Decidable (∀ i j, p.forced i = some j → σ i = j))

instance (p : Problem n) (σ : Equiv.Perm (Fin n)) : Decidable (RoundsExact p σ) :=
  inferInstanceAs (Decidable (∀ c ∈ p.ceremonies,
    ((Finset.univ.filter fun i => c.matchups i (σ i) = true).card : ℤ) = c.beams))

instance (p : Problem n) : DecidablePred (CodeConsistent p) := fun σ =>
  inferInstanceAs (Decidable (ExtendsForced p σ ∧
    (∀ i, p.forced i = none → p.allowed i (σ i) = true) ∧ RoundsExact p σ))

instance (p : Problem n) : DecidablePred (SpecConsistent p) := fun σ =>
  inferInstanceAs (Decidable (ExtendsForced p σ ∧
    (∀ i, p.allowed i (σ i) = true) ∧ RoundsExact p σ))

instance (p : Problem n) : DecidablePred (GlossaryConsistent p) := fun σ =>
  inferInstanceAs (Decidable (ExtendsForced p σ ∧ RoundsExact p σ))

/-- Number of bijections consistent in the code's sense. -/
def codeTotal (p : Problem n) : ℕ :=
  (Finset.univ.filter fun σ : Equiv.Perm (Fin n) => CodeConsistent p σ).card

/-- Among those, the number mapping `i` to `j`. -/
def codePairCount (p : Problem n) (i j : Fin n) : ℕ :=
  (Finset.univ.filter fun σ : Equiv.Perm (Fin n) =>
    CodeConsistent p σ ∧ σ i = j).card

/-- Number of bijections consistent in the specification's sense. -/
def specTotal (p : Problem n) : ℕ :=
  (Finset.univ.filter fun σ : Equiv.Perm (Fin n) => SpecConsistent p σ).card

/-- Among those, the number mapping `i` to `j`. -/
def specPairCount (p : Problem n) (i j : Fin n) : ℕ :=
  (Finset.univ.filter fun σ : Equiv.Perm (Fin n) =>
    SpecConsistent p σ ∧ σ i = j).card

/-- Every forced pair's target lies inside that man's domain — the shape of
problem the builder guarantees. -/
def ForcedInDomain (p : Problem n) : Prop :=
  ∀ i j, p.forced i = some j → p.allowed i j = true

instance (p : Problem n) : Decidable (ForcedInDomain p) :=
  inferInstanceAs (Decidable (∀ i j, p.forced i = some j → p.allowed i j = true))

/-- Removing woman `j₀` from man `i₀`'s domain — the engine-level effect of one
additional no-match oracle record. -/
def removePair (p : Problem n) (i₀ j₀ : Fin n) : Problem n :=
  { p with allowed := fun i j => if i = i₀ ∧ j = j₀ then false else p.allowed i j }

/-- Appending one round constraint to the ceremony list. -/
def addCeremony (p : Problem n) (c : Ceremony n) : Problem n :=
  { p with ceremonies := p.ceremonies ++ [c] }

/-- The published probability matrix plus the diagnostic flag, as computed by
`_write_probabilities`/`compute_probabilities`: entrywise `count / total` when
`total > 0`, otherwise an all-zero matrix together with an emitted diagnostic
(the `[ERROR] No consistent matchings exist` print).  Real division is
modelled over `ℚ`. -/
def probabilitiesOf (t : ℕ) (pc : List (List ℕ)) (n : ℕ) :
    (Fin n → Fin n → ℚ) × Bool :=
  if 0 < t then (fun i j => (mEntry pc i j : ℚ) / (t : ℚ), false)
  else (fun _ _ => 0, true)

/-- n = 1 problem whose single forced pair lies outside the (empty) domain. -/
def outsideProblem : Problem 1 := ⟨[], fun _ _ => false, fun _ => some 0⟩

/-- n = 2 problem whose two forced pairs target the same woman. -/
def collideProblem : Problem 2 := ⟨[], fun _ _ => true, fun _ => some 0⟩

/-- n = 1 problem: a complete, pairwise-consistent forced bijection that
violates its single ceremony (1 guessed pair correct, 0 required). -/
def beamsProblem : Problem 1 := ⟨[⟨fun _ _ => true, 0⟩], fun _ _ => true, fun _ => some 0⟩

/-- n = 2 problem with no constraints at all. -/
def freeProblem : Problem 2 := ⟨[], fun _ _ => true, fun _ => none⟩

/-! ## Builder data model

The builder operates on already-loaded evidence objects; locating, reading and
JSON-parsing the files is external marshalling.  Lists are taken in the
processing order the source establishes by sorting file names. -/

/-- ASCII lower-casing of one character (the evidence files' names and verdict
spellings are ASCII). -/
def asciiLower (c : Char) : Char :=
  if 'A' ≤ c ∧ c ≤ 'Z' then Char.ofNat (c.toNat + 32) else c

/-- Python `str.lower()` (ASCII fragment). -/
def pyLower (s : String) : String := ⟨s.data.map asciiLower⟩

/-- Python `str.strip()`: drop leading and trailing whitespace. -/
def pyStrip (s : String) : String :=
  ⟨((s.data.dropWhile Char.isWhitespace).reverse.dropWhile Char.isWhitespace).reverse⟩

/-- A Python value handed to `parse_truth_result`: a string, an int, a bool,
or anything else (None, floats, lists, …). -/
inductive PyVal where
  | str (s : String)
  | int (i : ℤ)
  | bool (b : Bool)
  | other
deriving DecidableEq

/-- A normalized truth-booth verdict. -/
inductive Verdict where
  | matched
  | noMatch
deriving DecidableEq

/-- `parse_truth_result`: the accepted literal spellings, after `strip()` and
`lower()`, plus int/bool truthiness; everything else raises `ValueError`. -/
def parse_truth_result (v : PyVal) : Except String Verdict :=
  match v with
  | .str s =>
      if pyLower (pyStrip s) ∈ ["match", "true", "yes", "1"] then .ok .matched
      else if pyLower (pyStrip s) ∈ ["no match", "nomatch", "false", "no", "0"] then
        .ok .noMatch
      else .error "Unrecognized truth booth result"
  | .int i => if i = 0 then .ok .noMatch else .ok .matched
  | .bool b => if b then .ok .matched else .ok .noMatch
  | .other => .error "Unrecognized truth booth result"

/-- A truth-booth record: two names and a raw verdict value. -/
structure TruthObj where
  man : String
  woman : String
  result : PyVal
deriving DecidableEq

/-- One named pair of a matches-format ceremony record. -/
structure MatchPair where
  man : String
  woman : String
deriving DecidableEq

/-- A ceremony record: optional explicit rosters, and either a matrix
(`matchups`) or a list of named pairs (`matches`), plus the beam count. -/
structure CeremonyObj where
  men : Option (List String)
  women : Option (List String)
  matchups : Option (List (List ℤ))
  matchesL : Option (List MatchPair)
  result : Option ℤ
deriving DecidableEq

/-- The builder's output problem: rosters, rounds `(matrix, beams)`, the
per-man domain bitmasks, and the forced pairs (an insertion-ordered map,
modelling the Python dict). -/
structure BProblem where
  men : List String
  women : List String
  ceremonies : List (List (List ℤ) × ℤ)
  allowed : List ℕ
  forced_pairs : List (ℕ × ℕ)
deriving DecidableEq

/-- Name → index lookup via `{name: i for i, name in enumerate(names)}`:
the *last* index wins for duplicate names. -/
def nameIndex (names : List String) (s : String) : Option ℕ :=
  ((List.range names.length).filter fun k => decide (names.getD k "" = s)).getLast?

/-- `if name and name not in acc: acc.append(name)`. -/
def dedupAppend (xs : List String) (x : String) : List String :=
  if x ≠ "" ∧ x ∉ xs then xs ++ [x] else xs

/-- `roster_from_ceremony_obj`: explicit arrays if both are truthy, otherwise
(when allowed) the names derived from the `matches` list in order of first
appearance. -/
def roster_from_ceremony_obj (obj : CeremonyObj) (allow_from_matches : Bool) :
    Option (List String × List String) :=
  if obj.men.getD [] ≠ [] ∧ obj.women.getD [] ≠ [] then
    some (obj.men.getD [], obj.women.getD [])
  else if allow_from_matches ∧ obj.matchesL.isSome then
    let pairs := obj.matchesL.getD []
    let menList := pairs.foldl (fun acc pr => dedupAppend acc (pyStrip pr.man)) []
    let womenList := pairs.foldl (fun acc pr => dedupAppend acc (pyStrip pr.woman)) []
    if menList ≠ [] ∧ womenList ≠ [] then some (menList, womenList) else none
  else none

/-- `mat[i][j] = v` on a list-of-lists matrix. -/
def setEntry (mat : List (List ℤ)) (i j : ℕ) (v : ℤ) : List (List ℤ) :=
  mat.set i ((mat.getD i []).set j v)

/-- The n×n integer zero matrix `[[0]*n for _ in range(n)]`. -/
def zeroMatI (n : ℕ) : List (List ℤ) :=
  (List.range n).map fun _ => (List.range n).map fun _ => (0 : ℤ)

/-- Filling the guess matrix from a `matches` list; unknown names fail. -/
def fillMatches (men women : List String) :
    List MatchPair → List (List ℤ) → Except String (List (List ℤ))
  | [], mat => .ok mat
  | pr :: rest, mat =>
    match nameIndex men (pyStrip pr.man), nameIndex women (pyStrip pr.woman) with
    | some mi, some wj => fillMatches men women rest (setEntry mat mi wj 1)
    | _, _ => .error "unknown name in matches"

/-- `matchups_from_ceremony_obj`: an n×n matrix from either format, plus the
beam count taken unmodified. -/
def matchups_from_ceremony_obj (obj : CeremonyObj) (men women : List String) :
    Except String (List (List ℤ) × ℤ) :=
  match obj.result with
  | none => .error "ceremony missing result"
  | some beams =>
    match obj.matchups with
    | some mat =>
        if mat.length ≠ men.length ∨ ¬(∀ row ∈ mat, row.length = men.length) then
          .error "ceremony matchups must be n x n"
        else .ok (mat, beams)
    | none =>
      match obj.matchesL with
      | some pairs =>
        match fillMatches men women pairs (zeroMatI men.length) with
        | .error e => .error e
        | .ok mat => .ok (mat, beams)
      | none => .error "ceremony must contain either matchups or matches"

/-- The per-record roster-mismatch check applied to every record after the
first. -/
def rosterCheck (men women : List String) (obj : CeremonyObj) :
    Except String Unit :=
  match roster_from_ceremony_obj obj false with
  | some (cm, cw) =>
      if cm ≠ men ∨ cw ≠ women then
        .error "men/women differ from earlier ceremony file(s)"
      else .ok ()
  | none => .ok ()

/-- Processing one ceremony record against the fixed roster. -/
def buildRound (men women : List String) (withCheck : Bool) (obj : CeremonyObj) :
    Except String (List (List ℤ) × ℤ) :=
  match (if withCheck then rosterCheck men women obj else .ok ()) with
  | .error e => .error e
  | .ok _ =>
    match matchups_from_ceremony_obj obj men women with
    | .error e => .error e
    | .ok (mat, beams) =>
      if mat.length ≠ men.length ∨ ¬(∀ row ∈ mat, row.length = men.length) then
        .error "matchups must be n x n"
      else .ok (mat, beams)

/-- Processing the ceremony records after the first. -/
def buildRoundsList (men women : List String) :
    List CeremonyObj → Except String (List (List (List ℤ) × ℤ))
  | [] => .ok []
  | obj :: rest =>
    match buildRound men women true obj with
    | .error e => .error e
    | .ok r =>
      match buildRoundsList men women rest with
      | .error e => .error e
      | .ok rs => .ok (r :: rs)

/-- The ceremony phase of `build_problem`: establish the roster from the first
record, then process every record against it.  No record at all leaves the
roster undefined and fails. -/
def build_roster_and_rounds (objs : List CeremonyObj) :
    Except String (List String × List String × List (List (List ℤ) × ℤ)) :=
  match objs with
  | [] => .error "Need at least one ceremony to define the roster."
  | first :: rest =>
    match roster_from_ceremony_obj first true with
    | none => .error "cannot infer men/women roster"
    | some (men, women) =>
      match buildRound men women false first with
      | .error e => .error e
      | .ok r =>
        match buildRoundsList men women rest with
        | .error e => .error e
        | .ok rs => .ok (men, women, r :: rs)

/-- `allowed[i] &= ~(1 << j)` on an arbitrary-precision integer bitmask. -/
def clearBit (a j : ℕ) : ℕ := if a.testBit j then a ^^^ (1 <<< j) else a

/-- Python-dict lookup in the insertion-ordered forced-pairs list. -/
def lookupForced (fp : List (ℕ × ℕ)) (i : ℕ) : Option ℕ :=
  (fp.find? fun pr => pr.1 == i).map Prod.snd

/-- The truth-booth loop: resolve names, parse the verdict, clear a domain bit
on `no match`, record a forced pair on `match` (failing on a conflicting
second `match` for the same man). -/
def applyBooths (men women : List String) :
    List TruthObj → List ℕ → List (ℕ × ℕ) →
    Except String (List ℕ × List (ℕ × ℕ))
  | [], allowed, fp => .ok (allowed, fp)
  | t :: ts, allowed, fp =>
    match nameIndex men (pyStrip t.man), nameIndex women (pyStrip t.woman) with
    | some i, some j =>
      match parse_truth_result t.result with
      | .error e => .error e
      | .ok .noMatch =>
          applyBooths men women ts
            (allowed.set i (clearBit (allowed.getD i 0) j)) fp
      | .ok .matched =>
        match lookupForced fp i with
        | some j' =>
            if j' ≠ j then .error "Conflicting forced matches"
            else applyBooths men women ts allowed fp
        | none => applyBooths men women ts allowed (fp ++ [(i, j)])
    | _, _ => .error "unknown names"

/-- The forced-pair folding loop: each forced pair must still be in its man's
domain, collapses that domain to a singleton, removes the woman from every
other domain, and two forced pairs may not share a woman. -/
def applyForced (n : ℕ) (fpAll : List (ℕ × ℕ)) :
    List (ℕ × ℕ) → List ℕ → Except String (List ℕ)
  | [], allowed => .ok allowed
  | (i, j) :: rest, allowed =>
    if (allowed.getD i 0) &&& (1 <<< j) = 0 then
      .error "Forced pair contradicts a no-match"
    else
      let allowed₁ := allowed.set i (1 <<< j)
      let allowed₂ := (List.range n).map fun ii =>
        if ii ≠ i then clearBit (allowed₁.getD ii 0) j else allowed₁.getD ii 0
      if ∃ pr ∈ fpAll, pr.1 ≠ i ∧ pr.2 = j then
        .error "Two forced pairs use the same woman"
      else applyForced n fpAll rest allowed₂

/-- `build_problem`: ceremony phase, truth-booth phase, forced-pair folding,
and the final empty-domain check. -/
def build_problem (ceremony_objs : List CeremonyObj) (truth_objs : List TruthObj) :
    Except String BProblem :=
  match build_roster_and_rounds ceremony_objs with
  | .error e => .error e
  | .ok (men, women, cers) =>
    match applyBooths men women truth_objs
        (List.replicate men.length ((1 <<< men.length) - 1)) [] with
    | .error e => .error e
    | .ok (allowed₁, fp) =>
      match applyForced men.length fp fp allowed₁ with
      | .error e => .error e
      | .ok allowed₂ =>
        if ∃ i ∈ List.range men.length, allowed₂.getD i 0 = 0 then
          .error "No allowed options remain after truth-booth constraints"
        else .ok ⟨men, women, cers, allowed₂, fp⟩

/-- The failure-relevant prefix of `compute_probabilities`: the input-presence
check followed by the builder.  (On a successfully built problem the remaining
pipeline — enumeration, probability division, serialization — raises no
further error: built problems have injective forced pairs, and a zero total
only prints a diagnostic.) -/
def compute_probabilities (ceremony_objs : List CeremonyObj)
    (truth_objs : List TruthObj) : Except String BProblem :=
  if ceremony_objs = [] ∧ truth_objs = [] then .error "No input files found."
  else build_problem ceremony_objs truth_objs

/-! ## Declarative descriptions of the oracle-evidence failure cases -/

/-- Record `t` parses as a `match` verdict. -/
def MatchRec (t : TruthObj) : Prop :=
  parse_truth_result t.result = .ok .matched

/-- Record `t` parses as a `no match` verdict. -/
def NoMatchRec (t : TruthObj) : Prop :=
  parse_truth_result t.result = .ok .noMatch

/-- Some man has two `match` records targeting different women. -/
def ConflictingMatches (men women : List String) (truths : List TruthObj) : Prop :=
  ∃ t ∈ truths, ∃ t' ∈ truths, MatchRec t ∧ MatchRec t' ∧
    nameIndex men (pyStrip t.man) = nameIndex men (pyStrip t'.man) ∧
    nameIndex women (pyStrip t.woman) ≠ nameIndex women (pyStrip t'.woman)

/-- Some forced pair's woman is excluded from the man's domain by a
`no match` record on the same pair. -/
def ForcedExcluded (men women : List String) (truths : List TruthObj) : Prop :=
  ∃ t ∈ truths, ∃ t' ∈ truths, MatchRec t ∧ NoMatchRec t' ∧
    nameIndex men (pyStrip t.man) = nameIndex men (pyStrip t'.man) ∧
    nameIndex women (pyStrip t.woman) = nameIndex women (pyStrip t'.woman)

/-- Two different men have `match` records targeting the same woman. -/
def SameWomanForced (men women : List String) (truths : List TruthObj) : Prop :=
  ∃ t ∈ truths, ∃ t' ∈ truths, MatchRec t ∧ MatchRec t' ∧
    nameIndex men (pyStrip t.man) ≠ nameIndex men (pyStrip t'.man) ∧
    nameIndex women (pyStrip t.woman) = nameIndex women (pyStrip t'.woman)

/-- There is a `match` record forcing man `i`. -/
def HasMatchFor (men : List String) (truths : List TruthObj) (i : ℕ) : Prop :=
  ∃ t ∈ truths, MatchRec t ∧ nameIndex men (pyStrip t.man) = some i

/-- There is a `match` record for the pair (i, j). -/
def HasMatch (men women : List String) (truths : List TruthObj) (i j : ℕ) : Prop :=
  ∃ t ∈ truths, MatchRec t ∧ nameIndex men (pyStrip t.man) = some i ∧
    nameIndex women (pyStrip t.woman) = some j

/-- There is a `no match` record for the pair (i, j). -/
def HasNoMatch (men women : List String) (truths : List TruthObj) (i j : ℕ) : Prop :=
  ∃ t ∈ truths, NoMatchRec t ∧ nameIndex men (pyStrip t.man) = some i ∧
    nameIndex women (pyStrip t.woman) = some j

/-- After the forced pairs are folded in, some (unforced) man's domain is
empty: every woman is either excluded by a `no match` record or taken by some
forced pair. -/
def EmptiedDomain (men women : List String) (truths : List TruthObj) : Prop :=
  ∃ i ∈ List.range men.length, ¬HasMatchFor men truths i ∧
    ∀ j ∈ List.range men.length, HasNoMatch men women truths i j ∨
      ∃ i' ∈ List.range men.length, HasMatch men women truths i' j

/-- Every record's names resolve against the rosters and its verdict parses
— the well-formedness the referential checks enforce record by record. -/
def AllResolvable (men women : List String) (truths : List TruthObj) : Prop :=
  ∀ t ∈ truths, (nameIndex men (pyStrip t.man)).isSome = true ∧
    (nameIndex women (pyStrip t.woman)).isSome = true ∧
    (parse_truth_result t.result).isOk = true

instance (t : TruthObj) : Decidable (MatchRec t) :=
  inferInstanceAs (Decidable (parse_truth_result t.result = .ok .matched))

instance (t : TruthObj) : Decidable (NoMatchRec t) :=
  inferInstanceAs (Decidable (parse_truth_result t.result = .ok .noMatch))

instance (men women : List String) (truths : List TruthObj) :
    Decidable (ConflictingMatches men women truths) :=
  inferInstanceAs (Decidable (∃ t ∈ truths, ∃ t' ∈ truths, MatchRec t ∧ MatchRec t' ∧
    nameIndex men (pyStrip t.man) = nameIndex men (pyStrip t'.man) ∧
    nameIndex women (pyStrip t.woman) ≠ nameIndex women (pyStrip t'.woman)))

instance (men women : List String) (truths : List TruthObj) :
    Decidable (ForcedExcluded men women truths) :=
  inferInstanceAs (Decidable (∃ t ∈ truths, ∃ t' ∈ truths, MatchRec t ∧ NoMatchRec t' ∧
    nameIndex men (pyStrip t.man) = nameIndex men (pyStrip t'.man) ∧
    nameIndex women (pyStrip t.woman) = nameIndex women (pyStrip t'.woman)))

instance (men women : List String) (truths : List TruthObj) :
    Decidable (SameWomanForced men women truths) :=
  inferInstanceAs (Decidable (∃ t ∈ truths, ∃ t' ∈ truths, MatchRec t ∧ MatchRec t' ∧
    nameIndex men (pyStrip t.man) ≠ nameIndex men (pyStrip t'.man) ∧
    nameIndex women (pyStrip t.woman) = nameIndex women (pyStrip t'.woman)))

instance (men : List String) (truths : List TruthObj) (i : ℕ) :
    Decidable (HasMatchFor men truths i) :=
  inferInstanceAs (Decidable (∃ t ∈ truths, MatchRec t ∧
    nameIndex men (pyStrip t.man) = some i))

instance (men women : List String) (truths : List TruthObj) (i j : ℕ) :
    Decidable (HasMatch men women truths i j) :=
  inferInstanceAs (Decidable (∃ t ∈ truths, MatchRec t ∧
    nameIndex men (pyStrip t.man) = some i ∧
    nameIndex women (pyStrip t.woman) = some j))

instance (men women : List String) (truths : List TruthObj) (i j : ℕ) :
    Decidable (HasNoMatch men women truths i j) :=
  inferInstanceAs (Decidable (∃ t ∈ truths, NoMatchRec t ∧
    nameIndex men (pyStrip t.man) = some i ∧
    nameIndex women (pyStrip t.woman) = some j))

instance (men women : List String) (truths : List TruthObj) :
    Decidable (EmptiedDomain men women truths) :=
  inferInstanceAs (Decidable (∃ i ∈ List.range men.length, ¬HasMatchFor men truths i ∧
    ∀ j ∈ List.range men.length, HasNoMatch men women truths i j ∨
      ∃ i' ∈ List.range men.length, HasMatch men women truths i' j))

instance (men women : List String) (truths : List TruthObj) :
    Decidable (AllResolvable men women truths) :=
  inferInstanceAs (Decidable (∀ t ∈ truths, (nameIndex men (pyStrip t.man)).isSome = true ∧
    (nameIndex women (pyStrip t.woman)).isSome = true ∧
    (parse_truth_result t.result).isOk = true))

/-- The number of bijections consistent in the glossary's sense (forced pairs
and exact round counts). -/
def glossaryTotal (p : Problem n) : ℕ :=
  (Finset.univ.filter fun σ : Equiv.Perm (Fin n) => GlossaryConsistent p σ).card

/-- The forced pairs, taken as a complete assignment, meet every ceremony's
beam count exactly. -/
def ForcedSatisfiesRounds (p : Problem n) : Prop :=
  ∀ c ∈ p.ceremonies, assignedHits p.forced c = c.beams

instance (p : Problem n) : Decidable (ForcedSatisfiesRounds p) :=
  inferInstanceAs (Decidable (∀ c ∈ p.ceremonies, assignedHits p.forced c = c.beams))

/-- n = 2: the §8 example — one identity-pairing round with one beam required
has no consistent bijection. -/
def oneBeamProblem : Problem 2 := ⟨[⟨fun i j => i = j, 1⟩], fun _ _ => true, fun _ => none⟩

/-- n = 1 problem whose single ceremony requires more beams than n. -/
def hiBeamProblem : Problem 1 := ⟨[⟨fun _ _ => true, 2⟩], fun _ _ => true, fun _ => none⟩

/-- n = 2 problem with one forced pair and one excluded pair. -/
def mixProblem : Problem 2 :=
  ⟨[], fun i j => ¬(i = 1 ∧ j = 0), fun i => if i = 0 then some 0 else none⟩

/-- A 1×1 ceremony record carrying an arbitrary beam count. -/
def simpleCer (b : ℤ) : CeremonyObj := ⟨some ["A"], some ["B"], some [[1]], none, some b⟩

/-- The problem the builder produces from `simpleCer b`: the beam count is
stored unmodified. -/
def simpleBuilt (b : ℤ) : BProblem := ⟨["A"], ["B"], [([[1]], b)], [1], []⟩

/-- A well-formed two-couple ceremony record naming the roster explicitly. -/
def cer22 : CeremonyObj :=
  ⟨some ["A", "B"], some ["C", "D"], some [[1, 0], [0, 1]], none, some 2⟩

/-- Two oracle records on the same pair: one `match`, one `no match`. -/
def truthsW : List TruthObj :=
  [⟨"A", "C", .str "match"⟩, ⟨"A", "C", .str "no match"⟩]

/-! ## Characterizing the search output

`SolPred p A taken b` says that `b` is one of the complete assignments the
search launched from partial assignment `A` (with taken-set `taken`) is after:
it extends `A` into a total injective assignment whose *new* values are
allowed and not yet taken, and which meets every ceremony's beam count
exactly. -/

structure SolPred (p : Problem n) (A : Fin n → Option (Fin n))
    (taken : Finset (Fin n)) (b : Fin n → Option (Fin n)) : Prop where
  extendsA : ∀ i j, A i = some j → b i = some j
  total : ∀ i, ∃ j, b i = some j
  inj : ∀ i i' j, b i = some j → b i' = some j → i = i'
  fresh : ∀ i j, A i = none → b i = some j → p.allowed i j = true ∧ j ∉ taken
  rounds : ∀ c ∈ p.ceremonies, assignedHits b c = c.beams

/-- Extending a partial assignment can only add ceremony hits. -/
lemma assignedHits_mono {A b : Fin n → Option (Fin n)}
    (hext : ∀ i j, A i = some j → b i = some j) (c : Ceremony n) :
    assignedHits A c ≤ assignedHits b c := by
  unfold assignedHits
  have : (Finset.univ.filter fun i => ∃ j, A i = some j ∧ c.matchups i j = true) ⊆
      (Finset.univ.filter fun i => ∃ j, b i = some j ∧ c.matchups i j = true) := by
    intro i hi
    rcases Finset.mem_filter.mp hi with ⟨-, j, hAj, hm⟩
    exact Finset.mem_filter.mpr ⟨Finset.mem_univ _, j, hext i j hAj, hm⟩
  exact_mod_cast Finset.card_le_card this

/-- Incremental update of the running hit counts: assigning woman `j` to a
previously unassigned man `i` adds one hit to exactly the ceremonies guessing
the pair (i, j). -/
lemma assignedHits_update {A : Fin n → Option (Fin n)} {i : Fin n} {j : Fin n}
    (hA : A i = none) (c : Ceremony n) :
    assignedHits (Function.update A i (some j)) c =
      assignedHits A c + (if c.matchups i j then 1 else 0) := by
  unfold assignedHits
  by_cases hm : c.matchups i j = true
  · rw [if_pos hm]
    have hset : (Finset.univ.filter fun x =>
        ∃ j', Function.update A i (some j) x = some j' ∧ c.matchups x j' = true) =
        insert i (Finset.univ.filter fun x => ∃ j', A x = some j' ∧ c.matchups x j' = true) := by
      ext x
      rcases eq_or_ne x i with rfl | hx
      · simp [Function.update_same, hA, hm]
      · simp [Function.update_noteq hx, hx]
    rw [hset, Finset.card_insert_of_not_mem (by simp [hA])]
    push_cast; ring
  · rw [if_neg hm]
    have hset : (Finset.univ.filter fun x =>
        ∃ j', Function.update A i (some j) x = some j' ∧ c.matchups x j' = true) =
        (Finset.univ.filter fun x => ∃ j', A x = some j' ∧ c.matchups x j' = true) := by
      ext x
      rcases eq_or_ne x i with rfl | hx
      · simp only [Finset.mem_filter, Finset.mem_univ, true_and,
          Function.update_same, hA]
        constructor
        · rintro ⟨j', hj', hm'⟩
          exact absurd (Option.some_injective _ hj' ▸ hm') hm
        · rintro ⟨j', hj', -⟩; exact absurd hj' (by simp)
      · simp [Function.update_noteq hx]
    rw [hset]; ring

/-- Soundness of the reachability upper bound: a full solution can exceed the
current hit count of a ceremony by at most `ubAdditional` computed over any
list containing all the currently unassigned men. -/
lemma hits_le_ub (p : Problem n) {A b : Fin n → Option (Fin n)}
    {taken : Finset (Fin n)} (hsp : SolPred p A taken b) (c : Ceremony n)
    {un' : List (Fin n)} (hun' : ∀ i, A i = none → i ∈ un') :
    assignedHits b c ≤ assignedHits A c + ubAdditional p c takenᶜ un' := by
  classical
  set pr : Fin n → Bool := fun i =>
    decide (∃ j, c.matchups i j = true ∧ p.allowed i j = true ∧ j ∈ takenᶜ) with hpr
  have hsub : (Finset.univ.filter fun i => ∃ j, b i = some j ∧ c.matchups i j = true) ⊆
      (Finset.univ.filter fun i => ∃ j, A i = some j ∧ c.matchups i j = true) ∪
        (un'.filter pr).toFinset := by
    intro i hi
    rcases Finset.mem_filter.mp hi with ⟨-, j, hbj, hm⟩
    rcases hAi : A i with _ | j₀
    · refine Finset.mem_union_right _ ?_
      rw [List.mem_toFinset, List.mem_filter]
      refine ⟨hun' i hAi, ?_⟩
      rw [hpr, decide_eq_true_eq]
      rcases hsp.fresh i j hAi hbj with ⟨hal, htk⟩
      exact ⟨j, hm, hal, Finset.mem_compl.mpr htk⟩
    · refine Finset.mem_union_left _ (Finset.mem_filter.mpr ⟨Finset.mem_univ _, j₀, hAi, ?_⟩)
      have := hsp.extendsA i j₀ hAi
      rw [this] at hbj
      exact Option.some_injective _ hbj ▸ hm
  have hc : (Finset.univ.filter fun i => ∃ j, b i = some j ∧ c.matchups i j = true).card ≤
      (Finset.univ.filter fun i => ∃ j, A i = some j ∧ c.matchups i j = true).card +
        (un'.filter pr).length := by
    calc _ ≤ ((Finset.univ.filter fun i => ∃ j, A i = some j ∧ c.matchups i j = true) ∪
            (un'.filter pr).toFinset).card := Finset.card_le_card hsub
    _ ≤ _ + (un'.filter pr).toFinset.card := Finset.card_union_le _ _
    _ ≤ _ + (un'.filter pr).length := by
        exact Nat.add_le_add_left (un'.filter pr).toFinset_card_le _
  unfold assignedHits ubAdditional
  exact_mod_cast hc

/-- Membership in the sorted candidate list. -/
lemma mem_cands (p : Problem n) (taken : Finset (Fin n))
    (A : Fin n → Option (Fin n)) (un : List (Fin n)) (i j : Fin n) :
    j ∈ (candList p taken i).insertionSort (ScoreLe p A un i) ↔
      p.allowed i j = true ∧ j ∉ taken := by
  rw [List.mem_insertionSort]
  unfold candList
  simp [List.mem_filter]

/-- The sorted candidate list has no duplicates. -/
lemma nodup_cands (p : Problem n) (taken : Finset (Fin n))
    (A : Fin n → Option (Fin n)) (un : List (Fin n)) (i : Fin n) :
    ((candList p taken i).insertionSort (ScoreLe p A un i)).Nodup :=
  (List.perm_insertionSort _ _).nodup_iff.mpr
    ((List.nodup_finRange n).filter _)

/-- Peeling one unassigned man off the solution predicate. -/
lemma solPred_cons_iff (p : Problem n) {A : Fin n → Option (Fin n)}
    {taken : Finset (Fin n)} {i : Fin n} (hAi : A i = none)
    (b : Fin n → Option (Fin n)) :
    SolPred p A taken b ↔
      ∃ j, (p.allowed i j = true ∧ j ∉ taken) ∧ b i = some j ∧
        SolPred p (Function.update A i (some j)) (insert j taken) b := by
  constructor
  · intro hsp
    rcases hsp.total i with ⟨j, hbj⟩
    rcases hsp.fresh i j hAi hbj with ⟨hal, htk⟩
    refine ⟨j, ⟨hal, htk⟩, hbj, ?_⟩
    refine ⟨?_, hsp.total, hsp.inj, ?_, hsp.rounds⟩
    · intro i' j' h
      rcases eq_or_ne i' i with rfl | hne
      · rw [Function.update_same] at h; exact h ▸ hbj
      · rw [Function.update_noteq hne] at h; exact hsp.extendsA i' j' h
    · intro i' j' hA' hb'
      have hne : i' ≠ i := by
        intro h; subst h; rw [Function.update_same] at hA'; exact Option.noConfusion hA'
      rw [Function.update_noteq hne] at hA'
      rcases hsp.fresh i' j' hA' hb' with ⟨hal', htk'⟩
      refine ⟨hal', ?_⟩
      rw [Finset.mem_insert]
      rintro (rfl | h)
      · exact hne (hsp.inj i' i j' hb' hbj)
      · exact htk' h
  · rintro ⟨j, ⟨hal, htk⟩, hbj, hsp⟩
    refine ⟨?_, hsp.total, hsp.inj, ?_, hsp.rounds⟩
    · intro i' j' h
      have hne : i' ≠ i := fun he => by rw [he, hAi] at h; exact Option.noConfusion h
      exact hsp.extendsA i' j' (by rw [Function.update_noteq hne]; exact h)
    · intro i' j' hA' hb'
      rcases eq_or_ne i' i with rfl | hne
      · rw [hbj] at hb'
        cases Option.some_injective _ hb'
        exact ⟨hal, htk⟩
      · have := hsp.fresh i' j' (by rw [Function.update_noteq hne]; exact hA') hb'
        exact ⟨this.1, fun h => this.2 (Finset.mem_insert_of_mem h)⟩

/-- Boolean `all` over the `(ceremony, sofar)` state list, in terms of the
underlying ceremony list. -/
lemma all_map_state {p : Problem n} {f : Ceremony n × ℤ → Bool}
    {A : Fin n → Option (Fin n)} :
    ((p.ceremonies.map fun c => (c, assignedHits A c)).all f = true) ↔
      ∀ c ∈ p.ceremonies, f (c, assignedHits A c) = true := by
  simp [List.all_map, Function.comp]

/-- The search from a partial state finds exactly the assignments satisfying
`SolPred` — in particular neither of the two prunings ever discards one. -/
theorem mem_dfs_iff (p : Problem n) :
    ∀ (R : List (Fin n)) (A : Fin n → Option (Fin n)) (taken : Finset (Fin n))
      (un : List (Fin n)),
      (∀ j, j ∈ taken ↔ ∃ i, A i = some j) →
      (∀ i i' j, A i = some j → A i' = some j → i = i') →
      (∀ i, A i = none → i ∈ R) →
      (∀ i, A i = none → i ∈ un) →
      ∀ b, (b ∈ dfs p R A taken
          (p.ceremonies.map fun c => (c, assignedHits A c)) un ↔
        SolPred p A taken b) := by
  intro R
  induction R with
  | nil =>
    intro A taken un hTaken hInj hCover hUn b
    have hAll : ∀ i, ∃ j, A i = some j := by
      intro i
      rcases hA : A i with _ | j
      · exact absurd (hCover i hA) (List.not_mem_nil i)
      · exact ⟨j, rfl⟩
    have hbeq : ∀ b, SolPred p A taken b → b = A := by
      intro b hsp
      funext i
      rcases hAll i with ⟨j, hAij⟩
      rw [hsp.extendsA i j hAij, hAij]
    simp only [dfs]
    by_cases hc : ∀ c ∈ p.ceremonies, assignedHits A c = c.beams
    · rw [if_pos (all_map_state.mpr fun c hcm => decide_eq_true_eq.mpr (hc c hcm)),
        List.mem_singleton]
      constructor
      · rintro rfl
        exact ⟨fun _ _ h => h, hAll, hInj,
          fun i j hA => absurd (hAll i) (by simp [hA]), hc⟩
      · exact hbeq b
    · rw [if_neg, List.mem_nil_iff, false_iff]
      · intro hsp
        exact hc (hbeq b hsp ▸ hsp.rounds)
      · intro hall
        exact hc fun c hcm => decide_eq_true_eq.mp (all_map_state.mp hall c hcm)
  | cons i rest ih =>
    intro A taken un hTaken hInj hCover hUn b
    rcases hAi : A i with _ | j₀
    -- branching on an unassigned man: try every candidate woman
    · simp only [dfs, hAi]
      rw [List.mem_flatMap, solPred_cons_iff p hAi b]
      have key : ∀ j, p.allowed i j = true → j ∉ taken →
          ((b ∈ if ((p.ceremonies.map fun c => (c, assignedHits A c)).all fun cs =>
                !cs.1.matchups i j || decide (cs.2 + 1 ≤ cs.1.beams)) = true then
              if ((p.ceremonies.map fun c => (c, assignedHits A c)).all fun cs =>
                  decide (cs.1.beams ≤ cs.2 + (if cs.1.matchups i j then 1 else 0) +
                    ubAdditional p cs.1 (insert j taken)ᶜ
                      (un.filter fun ii => decide (A ii = none) && decide (ii ≠ i)))) = true then
                dfs p rest (Function.update A i (some j)) (insert j taken)
                  ((p.ceremonies.map fun c => (c, assignedHits A c)).map fun cs =>
                    (cs.1, cs.2 + if cs.1.matchups i j then 1 else 0)) un
              else []
            else []) ↔
          (b i = some j ∧
            SolPred p (Function.update A i (some j)) (insert j taken) b)) := by
        intro j hal htk
        have hstate : ((p.ceremonies.map fun c => (c, assignedHits A c)).map fun cs =>
            (cs.1, cs.2 + if cs.1.matchups i j then 1 else 0)) =
            p.ceremonies.map fun c =>
              (c, assignedHits (Function.update A i (some j)) c) := by
          rw [List.map_map]
          refine List.map_congr_left fun c _ => ?_
          simp [Function.comp, assignedHits_update hAi]
        by_cases hchk1 : ∀ c ∈ p.ceremonies, c.matchups i j = true →
            assignedHits A c + 1 ≤ c.beams
        · rw [if_pos (all_map_state.mpr ?_)]
          swap
          · intro c hcm
            rcases hm : c.matchups i j with _ | _
            · simp [hm]
            · simp [hm, hchk1 c hcm hm]
          by_cases hchk2 : ∀ c ∈ p.ceremonies, c.beams ≤ assignedHits A c +
              (if c.matchups i j then 1 else 0) + ubAdditional p c (insert j taken)ᶜ
                (un.filter fun ii => decide (A ii = none) && decide (ii ≠ i))
          · rw [if_pos (all_map_state.mpr fun c hcm =>
              decide_eq_true_eq.mpr (hchk2 c hcm)), hstate]
            have hTaken' : ∀ j', j' ∈ insert j taken ↔
                ∃ i', Function.update A i (some j) i' = some j' := by
              intro j'
              rw [Finset.mem_insert]
              constructor
              · rintro (rfl | h)
                · exact ⟨i, Function.update_same _ _ _⟩
                · rcases (hTaken j').mp h with ⟨i₀, h₀⟩
                  have : i₀ ≠ i := fun he => by rw [he, hAi] at h₀; cases h₀
                  exact ⟨i₀, by rw [Function.update_noteq this]; exact h₀⟩
              · rintro ⟨i', h'⟩
                rcases eq_or_ne i' i with rfl | hne
                · rw [Function.update_same] at h'
                  exact Or.inl (Option.some_injective _ h').symm
                · rw [Function.update_noteq hne] at h'
                  exact Or.inr ((hTaken j').mpr ⟨i', h'⟩)
            have hInj' : ∀ i₁ i₂ j', Function.update A i (some j) i₁ = some j' →
                Function.update A i (some j) i₂ = some j' → i₁ = i₂ := by
              intro i₁ i₂ j' h₁ h₂
              rcases eq_or_ne i₁ i with he₁ | hne₁
              · rcases eq_or_ne i₂ i with he₂ | hne₂
                · rw [he₁, he₂]
                · rw [he₁, Function.update_same] at h₁
                  rw [Function.update_noteq hne₂] at h₂
                  cases Option.some_injective _ h₁
                  exact absurd ((hTaken j).mpr ⟨i₂, h₂⟩) htk
              · rcases eq_or_ne i₂ i with he₂ | hne₂
                · rw [he₂, Function.update_same] at h₂
                  rw [Function.update_noteq hne₁] at h₁
                  cases Option.some_injective _ h₂
                  exact absurd ((hTaken j).mpr ⟨i₁, h₁⟩) htk
                · rw [Function.update_noteq hne₁] at h₁
                  rw [Function.update_noteq hne₂] at h₂
                  exact hInj i₁ i₂ j' h₁ h₂
            have hCover' : ∀ i', Function.update A i (some j) i' = none →
                i' ∈ rest := by
              intro i' h'
              have hne : i' ≠ i := fun he => by
                rw [he, Function.update_same] at h'; cases h'
              rw [Function.update_noteq hne] at h'
              rcases List.mem_cons.mp (hCover i' h') with he | h
              · exact absurd he hne
              · exact h
            have hUn' : ∀ i', Function.update A i (some j) i' = none →
                i' ∈ un := by
              intro i' h'
              have hne : i' ≠ i := fun he => by
                rw [he, Function.update_same] at h'; cases h'
              rw [Function.update_noteq hne] at h'
              exact hUn i' h'
            rw [ih (Function.update A i (some j)) (insert j taken) un
              hTaken' hInj' hCover' hUn' b]
            constructor
            · intro hsp
              exact ⟨hsp.extendsA i j (Function.update_same _ _ _), hsp⟩
            · exact fun h => h.2
          · rw [if_neg, List.mem_nil_iff, false_iff]
            · rintro ⟨hbj, hsp'⟩
              apply hchk2
              intro c hcm
              have h1 : assignedHits b c ≤
                  assignedHits (Function.update A i (some j)) c +
                    ubAdditional p c (insert j taken)ᶜ
                      (un.filter fun ii => decide (A ii = none) && decide (ii ≠ i)) := by
                refine hits_le_ub p hsp' c ?_
                intro ii hii
                have hne : ii ≠ i := fun he => by
                  rw [he, Function.update_same] at hii; cases hii
                rw [Function.update_noteq hne] at hii
                rw [List.mem_filter]
                exact ⟨hUn ii hii, by simp [hii, hne]⟩
              rw [assignedHits_update hAi] at h1
              calc c.beams = assignedHits b c := (hsp'.rounds c hcm).symm
              _ ≤ _ := h1
            · intro hall
              apply hchk2
              intro c hcm
              exact decide_eq_true_eq.mp (all_map_state.mp hall c hcm)
        · rw [if_neg, List.mem_nil_iff, false_iff]
          · rintro ⟨hbj, hsp'⟩
            apply hchk1
            intro c hcm hm
            have h1 : assignedHits (Function.update A i (some j)) c ≤
                assignedHits b c := assignedHits_mono hsp'.extendsA c
            rw [assignedHits_update hAi, if_pos hm] at h1
            rw [hsp'.rounds c hcm] at h1
            exact h1
          · intro hall
            apply hchk1
            intro c hcm hm
            have := all_map_state.mp hall c hcm
            rw [hm] at this
            simpa using this
      constructor
      · rintro ⟨j, hjc, hb⟩
        rcases (mem_cands p taken A un i j).mp hjc with ⟨hal, htk⟩
        rcases (key j hal htk).mp hb with ⟨hbj, hsp'⟩
        exact ⟨j, ⟨hal, htk⟩, hbj, hsp'⟩
      · rintro ⟨j, ⟨hal, htk⟩, hbj, hsp'⟩
        exact ⟨j, (mem_cands p taken A un i j).mpr ⟨hal, htk⟩,
          (key j hal htk).mpr ⟨hbj, hsp'⟩⟩
    -- man already assigned by a forced pair: feasibility check only
    · simp only [dfs, hAi]
      by_cases hcond : ∀ c ∈ p.ceremonies, assignedHits A c ≤ c.beams ∧
          c.beams ≤ assignedHits A c +
            ubAdditional p c takenᶜ (un.filter fun ii => decide (A ii = none))
      · rw [if_pos (all_map_state.mpr fun c hcm => by
          simp [decide_eq_true_eq, (hcond c hcm).1, (hcond c hcm).2])]
        refine ih A taken un hTaken hInj ?_ hUn b
        intro i' h'
        rcases List.mem_cons.mp (hCover i' h') with he | h
        · rw [he, hAi] at h'; exact Option.noConfusion h'
        · exact h
      · rw [if_neg, List.mem_nil_iff, false_iff]
        · intro hsp
          apply hcond
          intro c hcm
          constructor
          · rw [← hsp.rounds c hcm]
            exact assignedHits_mono hsp.extendsA c
          · rw [← hsp.rounds c hcm]
            refine hits_le_ub p hsp c ?_
            intro ii hii
            rw [List.mem_filter]
            exact ⟨hUn ii hii, by simp [hii]⟩
        · intro hall
          apply hcond
          intro c hcm
          have := all_map_state.mp hall c hcm
          rw [Bool.and_eq_true, decide_eq_true_eq, decide_eq_true_eq] at this
          exact this

/-- Committing a fresh candidate preserves the search-state invariants. -/
lemma update_invars {A : Fin n → Option (Fin n)}
    {taken : Finset (Fin n)} {un : List (Fin n)} {i j : Fin n}
    (hTaken : ∀ j', j' ∈ taken ↔ ∃ i', A i' = some j')
    (hInj : ∀ i₁ i₂ j', A i₁ = some j' → A i₂ = some j' → i₁ = i₂)
    (hUn : ∀ i', A i' = none → i' ∈ un)
    (hAi : A i = none) (htk : j ∉ taken) :
    (∀ j', j' ∈ insert j taken ↔ ∃ i', Function.update A i (some j) i' = some j') ∧
    (∀ i₁ i₂ j', Function.update A i (some j) i₁ = some j' →
      Function.update A i (some j) i₂ = some j' → i₁ = i₂) ∧
    (∀ i', Function.update A i (some j) i' = none → i' ∈ un) := by
  refine ⟨?_, ?_, ?_⟩
  · intro j'
    rw [Finset.mem_insert]
    constructor
    · rintro (rfl | h)
      · exact ⟨i, Function.update_same _ _ _⟩
      · rcases (hTaken j').mp h with ⟨i₀, h₀⟩
        have : i₀ ≠ i := fun he => by rw [he, hAi] at h₀; cases h₀
        exact ⟨i₀, by rw [Function.update_noteq this]; exact h₀⟩
    · rintro ⟨i', h'⟩
      rcases eq_or_ne i' i with rfl | hne
      · rw [Function.update_same] at h'
        exact Or.inl (Option.some_injective _ h').symm
      · rw [Function.update_noteq hne] at h'
        exact Or.inr ((hTaken j').mpr ⟨i', h'⟩)
  · intro i₁ i₂ j' h₁ h₂
    rcases eq_or_ne i₁ i with he₁ | hne₁
    · rcases eq_or_ne i₂ i with he₂ | hne₂
      · rw [he₁, he₂]
      · rw [he₁, Function.update_same] at h₁
        rw [Function.update_noteq hne₂] at h₂
        cases Option.some_injective _ h₁
        exact absurd ((hTaken j).mpr ⟨i₂, h₂⟩) htk
    · rcases eq_or_ne i₂ i with he₂ | hne₂
      · rw [he₂, Function.update_same] at h₂
        rw [Function.update_noteq hne₁] at h₁
        cases Option.some_injective _ h₂
        exact absurd ((hTaken j).mpr ⟨i₁, h₁⟩) htk
      · rw [Function.update_noteq hne₁] at h₁
        rw [Function.update_noteq hne₂] at h₂
        exact hInj i₁ i₂ j' h₁ h₂
  · intro i' h'
    have hne : i' ≠ i := fun he => by
      rw [he, Function.update_same] at h'; cases h'
    rw [Function.update_noteq hne] at h'
    exact hUn i' h'

/-- Rewriting the incremental sofar-update into assigned-hits form. -/
lemma state_update {p : Problem n} {A : Fin n → Option (Fin n)} {i j : Fin n}
    (hAi : A i = none) :
    ((p.ceremonies.map fun c => (c, assignedHits A c)).map fun cs =>
      (cs.1, cs.2 + if cs.1.matchups i j then 1 else 0)) =
      p.ceremonies.map fun c =>
        (c, assignedHits (Function.update A i (some j)) c) := by
  rw [List.map_map]
  refine List.map_congr_left fun c _ => ?_
  simp [Function.comp, assignedHits_update hAi]

/-- The search returns each solution exactly once. -/
theorem dfs_nodup (p : Problem n) :
    ∀ (R : List (Fin n)) (A : Fin n → Option (Fin n)) (taken : Finset (Fin n))
      (un : List (Fin n)),
      (∀ j, j ∈ taken ↔ ∃ i, A i = some j) →
      (∀ i i' j, A i = some j → A i' = some j → i = i') →
      (∀ i, A i = none → i ∈ R) →
      (∀ i, A i = none → i ∈ un) →
      (dfs p R A taken (p.ceremonies.map fun c => (c, assignedHits A c)) un).Nodup := by
  intro R
  induction R with
  | nil =>
    intro A taken un _ _ _ _
    simp only [dfs]
    split
    · exact List.nodup_singleton _
    · exact List.nodup_nil
  | cons i rest ih =>
    intro A taken un hTaken hInj hCover hUn
    rcases hAi : A i with _ | j₀
    · simp only [dfs, hAi]
      rw [List.nodup_flatMap]
      have hmem : ∀ j, p.allowed i j = true → j ∉ taken → ∀ b,
          b ∈ dfs p rest (Function.update A i (some j)) (insert j taken)
            (p.ceremonies.map fun c =>
              (c, assignedHits (Function.update A i (some j)) c)) un →
          b i = some j := by
        intro j hal htk b hb
        obtain ⟨hT', hI', hU'⟩ := update_invars hTaken hInj hUn hAi htk
        have hC' : ∀ i', Function.update A i (some j) i' = none → i' ∈ rest := by
          intro i' h'
          have hne : i' ≠ i := fun he => by
            rw [he, Function.update_same] at h'; cases h'
          rw [Function.update_noteq hne] at h'
          rcases List.mem_cons.mp (hCover i' h') with he | h
          · exact absurd he hne
          · exact h
        exact ((mem_dfs_iff p rest _ _ un hT' hI' hC' hU' b).mp hb).extendsA i j
          (Function.update_same _ _ _)
      constructor
      · intro j hj
        rcases (mem_cands p taken A un i j).mp hj with ⟨hal, htk⟩
        obtain ⟨hT', hI', hU'⟩ := update_invars hTaken hInj hUn hAi htk
        have hC' : ∀ i', Function.update A i (some j) i' = none → i' ∈ rest := by
          intro i' h'
          have hne : i' ≠ i := fun he => by
            rw [he, Function.update_same] at h'; cases h'
          rw [Function.update_noteq hne] at h'
          rcases List.mem_cons.mp (hCover i' h') with he | h
          · exact absurd he hne
          · exact h
        split
        · split
          · rw [state_update hAi]
            exact ih _ _ _ hT' hI' hC' hU'
          · exact List.nodup_nil
        · exact List.nodup_nil
      · refine List.Pairwise.imp_of_mem ?_ (nodup_cands p taken A un i)
        intro j₁ j₂ hj₁ hj₂ hne
        rcases (mem_cands p taken A un i j₁).mp hj₁ with ⟨hal₁, htk₁⟩
        rcases (mem_cands p taken A un i j₂).mp hj₂ with ⟨hal₂, htk₂⟩
        intro b hb₁ hb₂
        simp only [Function.onFun] at hb₁ hb₂
        split at hb₁
        · split at hb₁
          · rw [state_update hAi] at hb₁
            split at hb₂
            · split at hb₂
              · rw [state_update hAi] at hb₂
                have h₁ := hmem j₁ hal₁ htk₁ b hb₁
                have h₂ := hmem j₂ hal₂ htk₂ b hb₂
                rw [h₁] at h₂
                exact hne (Option.some_injective _ h₂)
              · exact absurd hb₂ (List.not_mem_nil b)
            · exact absurd hb₂ (List.not_mem_nil b)
          · exact absurd hb₁ (List.not_mem_nil b)
        · exact absurd hb₁ (List.not_mem_nil b)
    · simp only [dfs, hAi]
      split
      · refine ih A taken un hTaken hInj ?_ hUn
        intro i' h'
        rcases List.mem_cons.mp (hCover i' h') with he | h
        · rw [he, hAi] at h'; exact Option.noConfusion h'
        · exact h
      · exact List.nodup_nil

/-! ## From complete assignments to permutations -/

/-- A permutation viewed as a complete assignment. -/
def toB (σ : Equiv.Perm (Fin n)) : Fin n → Option (Fin n) := fun i => some (σ i)

lemma toB_injective : Function.Injective (toB (n := n)) := by
  intro σ σ' h
  ext i
  have h' := congrFun h i
  simp only [toB, Option.some.injEq] at h'
  exact congrArg Fin.val h'

lemma assignedHits_toB (σ : Equiv.Perm (Fin n)) (c : Ceremony n) :
    assignedHits (toB σ) c =
      ((Finset.univ.filter fun i => c.matchups i (σ i) = true).card : ℤ) := by
  unfold assignedHits toB
  congr 2
  ext i
  simp only [Finset.mem_filter, Finset.mem_univ, true_and]
  constructor
  · rintro ⟨j, hj, hm⟩
    cases Option.some_injective _ hj
    exact hm
  · exact fun hm => ⟨σ i, rfl, hm⟩

/-- The solutions of the search launched from the seeded state are exactly the
code-consistent permutations. -/
lemma solPred_init_iff (p : Problem n) (b : Fin n → Option (Fin n)) :
    SolPred p p.forced (initTaken p) b ↔
      ∃ σ : Equiv.Perm (Fin n), CodeConsistent p σ ∧ b = toB σ := by
  constructor
  · intro hsp
    choose f hf using hsp.total
    have hinj : Function.Injective f := fun i i' h =>
      hsp.inj i i' (f i) (hf i) (h ▸ hf i')
    have hbij : Function.Bijective f := Finite.injective_iff_bijective.mp hinj
    refine ⟨Equiv.ofBijective f hbij, ⟨?_, ?_, ?_⟩, ?_⟩
    · intro i j hforced
      have := hsp.extendsA i j hforced
      rw [hf i] at this
      exact (Option.some_injective _ this).symm ▸ rfl
    · intro i hforced
      exact (hsp.fresh i (f i) hforced (hf i)).1
    · intro c hc
      rw [← hsp.rounds c hc]
      unfold assignedHits
      congr 2
      ext i
      simp only [Finset.mem_filter, Finset.mem_univ, true_and,
        Equiv.ofBijective_apply]
      constructor
      · exact fun hm => ⟨f i, hf i, hm⟩
      · rintro ⟨j, hj, hm⟩
        rw [hf i] at hj
        cases Option.some_injective _ hj
        exact hm
    · funext i
      exact hf i
  · rintro ⟨σ, ⟨hext, hdom, hrounds⟩, rfl⟩
    refine ⟨?_, fun i => ⟨σ i, rfl⟩, ?_, ?_, ?_⟩
    · intro i j hforced
      show some (σ i) = some j
      exact congrArg _ (hext i j hforced)
    · intro i i' j hi hi'
      have h1 : σ i = j := Option.some_injective _ hi
      have h2 : σ i' = j := Option.some_injective _ hi'
      exact σ.injective (h1.trans h2.symm)
    · intro i j hforced hbj
      have hj : σ i = j := Option.some_injective _ hbj
      subst hj
      refine ⟨hdom i hforced, ?_⟩
      intro hmem
      unfold initTaken at hmem
      rcases Finset.mem_filter.mp hmem with ⟨-, i₀, h₀⟩
      have : σ i₀ = σ i := hext i₀ (σ i) h₀
      have : i₀ = i := σ.injective this
      rw [this] at h₀
      rw [h₀] at hforced
      exact Option.noConfusion hforced
    · intro c hc
      rw [assignedHits_toB]
      exact hrounds c hc

/-- Counting a duplicate-free list whose members are the `toB`-images of a
finset of permutations. -/
lemma length_eq_card_of_toB {sols : List (Fin n → Option (Fin n))}
    (hnd : sols.Nodup) {s : Finset (Equiv.Perm (Fin n))}
    (hmem : ∀ b, b ∈ sols ↔ ∃ σ ∈ s, b = toB σ) :
    sols.length = s.card := by
  classical
  have h1 : sols.toFinset = s.image toB := by
    ext b
    rw [List.mem_toFinset, hmem, Finset.mem_image]
    constructor
    · rintro ⟨σ, hσ, rfl⟩; exact ⟨σ, hσ, rfl⟩
    · rintro ⟨σ, hσ, rfl⟩; exact ⟨σ, hσ, rfl⟩
  rw [← List.toFinset_card_of_nodup hnd, h1,
    Finset.card_image_of_injective _ toB_injective]

/-- Entry access into the accumulated count matrix. -/
lemma mEntry_countMatrix (sols : List (Fin n → Option (Fin n))) (i j : Fin n) :
    mEntry (countMatrix sols) i j = sols.countP fun b => decide (b i = some j) := by
  unfold mEntry countMatrix
  simp [List.getD_eq_getElem?_getD]

/-- Entry access into the zero matrix. -/
lemma mEntry_zeroMatrix (i j : Fin n) : mEntry (zeroMatrix n) i j = 0 := by
  unfold mEntry zeroMatrix
  simp [List.getD_eq_getElem?_getD]

/-- The engine returns a value iff the forced pairs do not collide. -/
lemma enumerate_eq_none_iff (p : Problem n) :
    enumerate_consistent_matchings p = none ↔ forcedCollision p := by
  unfold enumerate_consistent_matchings
  by_cases hcol : forcedCollision p
  · simp [hcol]
  · simp only [if_neg hcol]
    constructor
    · intro h
      split at h <;> cases h
    · exact fun h => absurd h hcol

/-- Whenever the engine returns, its total and matrix are exactly the counts of
code-consistent permutations. -/
theorem enumerate_eq_counts (p : Problem n) {t : ℕ} {pc : List (List ℕ)}
    (h : enumerate_consistent_matchings p = some (t, pc)) :
    t = codeTotal p ∧ ∀ i j, mEntry pc i j = codePairCount p i j := by
  classical
  have hcol : ¬forcedCollision p := by
    intro hc
    rw [(enumerate_eq_none_iff p).mpr hc] at h
    cases h
  rw [enumerate_consistent_matchings, if_neg hcol] at h
  simp only [] at h
  by_cases hEarly : ((p.ceremonies.map fun c => (c, assignedHits p.forced c)).any
      fun cs => decide (cs.1.beams < cs.2)) = true
  · rw [if_pos hEarly] at h
    rcases List.any_eq_true.mp hEarly with ⟨cs, hcs, hlt⟩
    rcases List.mem_map.mp hcs with ⟨c, hc, rfl⟩
    rw [decide_eq_true_eq] at hlt
    have hempty : (Finset.univ.filter fun σ : Equiv.Perm (Fin n) =>
        CodeConsistent p σ) = ∅ := by
      rw [Finset.filter_eq_empty_iff]
      intro σ _
      rintro ⟨hext, hdom, hrounds⟩
      have hle : assignedHits p.forced c ≤ assignedHits (toB σ) c := by
        refine assignedHits_mono ?_ c
        intro i j hf
        show some (σ i) = some j
        exact congrArg _ (hext i j hf)
      rw [assignedHits_toB, hrounds c hc] at hle
      exact absurd hlt (not_lt.mpr hle)
    cases h
    constructor
    · unfold codeTotal
      rw [hempty, Finset.card_empty]
    · intro i j
      rw [mEntry_zeroMatrix]
      unfold codePairCount
      rw [eq_comm, Finset.card_eq_zero, Finset.filter_eq_empty_iff]
      intro σ _
      rw [Finset.filter_eq_empty_iff] at hempty
      exact fun hcc => hempty (Finset.mem_univ σ) hcc.1
  · rw [if_neg hEarly] at h
    have hTaken : ∀ j, j ∈ initTaken p ↔ ∃ i, p.forced i = some j := by
      intro j; simp [initTaken]
    have hInj : ∀ i i' j, p.forced i = some j → p.forced i' = some j → i = i' := by
      intro i i' j hi hi'
      by_contra hne
      exact hcol ⟨i, i', hne, j, hi, hi'⟩
    have hCover : ∀ i, p.forced i = none → i ∈ searchOrder p := by
      intro i _
      unfold searchOrder
      rw [List.mem_insertionSort]
      exact List.mem_finRange i
    have hUn : ∀ i, p.forced i = none → i ∈ initUnassigned p := by
      intro i hi
      unfold initUnassigned
      rw [List.mem_filter]
      exact ⟨List.mem_finRange i, by simp [hi]⟩
    have hmem := mem_dfs_iff p (searchOrder p) p.forced (initTaken p)
      (initUnassigned p) hTaken hInj hCover hUn
    have hnd := dfs_nodup p (searchOrder p) p.forced (initTaken p)
      (initUnassigned p) hTaken hInj hCover hUn
    cases h
    constructor
    · unfold codeTotal
      refine length_eq_card_of_toB hnd ?_
      intro b
      rw [hmem b, solPred_init_iff p b]
      constructor
      · rintro ⟨σ, hcc, rfl⟩
        exact ⟨σ, Finset.mem_filter.mpr ⟨Finset.mem_univ _, hcc⟩, rfl⟩
      · rintro ⟨σ, hσ, rfl⟩
        exact ⟨σ, (Finset.mem_filter.mp hσ).2, rfl⟩
    · intro i j
      rw [mEntry_countMatrix, List.countP_eq_length_filter]
      unfold codePairCount
      refine length_eq_card_of_toB (hnd.filter _) ?_
      intro b
      rw [List.mem_filter, hmem b, solPred_init_iff p b]
      constructor
      · rintro ⟨⟨σ, hcc, rfl⟩, hq⟩
        rw [decide_eq_true_eq] at hq
        have : σ i = j := Option.some_injective _ hq
        exact ⟨σ, Finset.mem_filter.mpr ⟨Finset.mem_univ _, hcc, this⟩, rfl⟩
      · rintro ⟨σ, hσ, rfl⟩
        rcases Finset.mem_filter.mp hσ with ⟨-, hcc, hij⟩
        refine ⟨⟨σ, hcc, rfl⟩, ?_⟩
        rw [decide_eq_true_eq]
        exact congrArg some hij

/-! ## Helper lemmas for the claim theorems -/

/-- With every forced target inside its domain, code-level and spec-level
consistency coincide. -/
lemma code_iff_spec_of_forcedInDomain (p : Problem n) (hdom : ForcedInDomain p)
    (σ : Equiv.Perm (Fin n)) : CodeConsistent p σ ↔ SpecConsistent p σ := by
  constructor
  · rintro ⟨hext, hall, hr⟩
    refine ⟨hext, ?_, hr⟩
    intro i
    rcases hf : p.forced i with _ | j
    · exact hall i hf
    · rw [hext i j hf]
      exact hdom i j hf
  · rintro ⟨hext, hall, hr⟩
    exact ⟨hext, fun i _ => hall i, hr⟩

lemma countMatrix_nil : countMatrix (n := n) [] = zeroMatrix n := by
  unfold countMatrix zeroMatrix
  simp

/-- A zero total always comes with the all-zero matrix. -/
lemma enumerate_zero_matrix (p : Problem n) {pc : List (List ℕ)}
    (h : enumerate_consistent_matchings p = some (0, pc)) : pc = zeroMatrix n := by
  rw [enumerate_consistent_matchings] at h
  by_cases hcol : forcedCollision p
  · rw [if_pos hcol] at h; cases h
  rw [if_neg hcol] at h
  simp only [] at h
  by_cases hEarly : ((p.ceremonies.map fun c => (c, assignedHits p.forced c)).any
      fun cs => decide (cs.1.beams < cs.2)) = true
  · rw [if_pos hEarly] at h
    rcases h with ⟨⟩
    rfl
  · rw [if_neg hEarly] at h
    rw [Option.some.injEq, Prod.mk.injEq] at h
    obtain ⟨hlen, hpc⟩ := h
    rw [← hpc, List.length_eq_zero.mp hlen, countMatrix_nil]

/-- A non-colliding problem always gets an engine result. -/
lemma enumerate_isSome_of_not_collision (p : Problem n) (hcol : ¬forcedCollision p) :
    ∃ t pc, enumerate_consistent_matchings p = some (t, pc) := by
  rcases henum : enumerate_consistent_matchings p with _ | r
  · exact absurd ((enumerate_eq_none_iff p).mp henum) hcol
  · rcases r with ⟨t, pc⟩
    exact ⟨t, pc, rfl⟩

/-! ## Claim theorems: the exact enumeration engine -/

/-- C1 (counterexample): on the `Problem` whose forced pair (0 → 0) lies
outside the (empty) domain of man 0, the engine returns total 1 and
pair-count 1, while the number of bijections that extend every forced pair
*and* map every left-element into its domain is 0.  The claim, read over every
`Problem`, is false. -/
theorem C1_counterexample :
    enumerate_consistent_matchings outsideProblem = some (1, [[1]]) ∧
      specTotal outsideProblem = 0 := by decide

/-- C1 (amended): for every Problem whose forced pairs lie inside their
domains (as every builder-produced Problem does), whenever the engine returns
— it returns unless two forced pairs collide — the total is exactly the
number of bijections that extend every forced pair, map every left-element
into its domain and meet every round's required-correct count exactly, and
`pair_counts[i][j]` counts those bijections mapping i to j; in particular the
branch-and-bound pruning never changes these counts. -/
theorem C1_amended (p : Problem n) {t : ℕ} {pc : List (List ℕ)}
    (hdom : ForcedInDomain p)
    (h : enumerate_consistent_matchings p = some (t, pc)) :
    t = specTotal p ∧ ∀ i j, mEntry pc i j = specPairCount p i j := by
  obtain ⟨ht, hpc⟩ := enumerate_eq_counts p h
  constructor
  · rw [ht]
    unfold codeTotal specTotal
    exact congrArg Finset.card (Finset.filter_congr fun σ _ =>
      code_iff_spec_of_forcedInDomain p hdom σ)
  · intro i j
    rw [hpc i j]
    unfold codePairCount specPairCount
    exact congrArg Finset.card (Finset.filter_congr fun σ _ =>
      and_congr_left' (code_iff_spec_of_forcedInDomain p hdom σ))

/-- C1 (witness): the amended theorem evaluated on the free 2×2 problem. -/
theorem C1_witness :
    2 = specTotal freeProblem ∧
      ∀ i j, mEntry [[1, 1], [1, 1]] i j = specPairCount freeProblem i j :=
  C1_amended freeProblem (by decide) (by decide)

/-- C2: whenever the engine returns a positive total, every row of
`pair_counts` sums to `total` and every column of `pair_counts` sums to
`total`. -/
theorem C2_marginals (p : Problem n) {t : ℕ} {pc : List (List ℕ)}
    (h : enumerate_consistent_matchings p = some (t, pc)) (_ht : 0 < t) :
    (∀ i : Fin n, ∑ j : Fin n, mEntry pc i j = t) ∧
      (∀ j : Fin n, ∑ i : Fin n, mEntry pc i j = t) := by
  classical
  obtain ⟨ht, hpc⟩ := enumerate_eq_counts p h
  have hfib : ∀ (f : Equiv.Perm (Fin n) → Fin n),
      (Finset.univ.filter fun σ : Equiv.Perm (Fin n) => CodeConsistent p σ).card =
        ∑ b : Fin n, ((Finset.univ.filter fun σ : Equiv.Perm (Fin n) =>
          CodeConsistent p σ).filter fun σ => f σ = b).card := by
    intro f
    exact Finset.card_eq_sum_card_fiberwise fun σ _ => Finset.mem_univ (f σ)
  constructor
  · intro i
    rw [ht]
    calc ∑ j, mEntry pc i j = ∑ j, codePairCount p i j :=
          Finset.sum_congr rfl fun j _ => hpc i j
    _ = codeTotal p := by
        unfold codeTotal codePairCount
        rw [hfib fun σ => σ i]
        refine Finset.sum_congr rfl fun j _ => congrArg Finset.card ?_
        rw [Finset.filter_filter]
  · intro j
    rw [ht]
    calc ∑ i, mEntry pc i j = ∑ i, codePairCount p i j :=
          Finset.sum_congr rfl fun i _ => hpc i j
    _ = codeTotal p := by
        unfold codeTotal codePairCount
        rw [hfib fun σ => σ.symm j]
        refine Finset.sum_congr rfl fun i _ => congrArg Finset.card ?_
        rw [Finset.filter_filter]
        refine Finset.filter_congr fun σ _ => and_congr_right fun _ => ?_
        rw [Equiv.symm_apply_eq, eq_comm]

/-- C2 (witness): row 0 and column 0 of the free 2×2 problem. -/
theorem C2_witness :
    (∑ j : Fin 2, mEntry [[1, 1], [1, 1]] (0 : Fin 2) j = 2) ∧
      (∑ i : Fin 2, mEntry [[1, 1], [1, 1]] i (0 : Fin 2) = 2) :=
  ⟨(C2_marginals freeProblem (by decide) (by decide)).1 0,
    (C2_marginals freeProblem (by decide) (by decide)).2 0⟩

/-- C3 (counterexample): on the `Problem` whose two forced pairs target the
same woman there is no consistent bijection, yet the engine does not return
`(0, all-zero matrix)` — the seeding loop raises `SystemExit` instead.  The
claim, read over every `Problem`, is false. -/
theorem C3_counterexample :
    glossaryTotal collideProblem = 0 ∧
      enumerate_consistent_matchings collideProblem = none := by decide

/-- C3 (amended): for every Problem whose forced pairs do not collide (as
every builder-produced Problem): if no consistent bijection exists the engine
returns `(0, all-zero matrix)`, the published probability matrix is all zero
and the diagnostic flag is raised instead of a division error; and whenever
the total is positive every published probability is `pair_counts[i][j] /
total`. -/
theorem C3_amended (p : Problem n) (hcol : ¬forcedCollision p) :
    (glossaryTotal p = 0 →
      enumerate_consistent_matchings p = some (0, zeroMatrix n) ∧
      (∀ i j, (probabilitiesOf 0 (zeroMatrix n) n).1 i j = 0) ∧
      (probabilitiesOf 0 (zeroMatrix n) n).2 = true) ∧
    ∀ t pc, enumerate_consistent_matchings p = some (t, pc) → 0 < t →
      (probabilitiesOf t pc n).2 = false ∧
      ∀ i j, (probabilitiesOf t pc n).1 i j = (mEntry pc i j : ℚ) / (t : ℚ) := by
  constructor
  · intro hnone
    obtain ⟨t, pc, henum⟩ := enumerate_isSome_of_not_collision p hcol
    obtain ⟨ht, -⟩ := enumerate_eq_counts p henum
    have htz : t = 0 := by
      rw [ht]
      unfold codeTotal
      rw [Finset.card_eq_zero, Finset.filter_eq_empty_iff]
      intro σ _ hcc
      have hmem : σ ∈ Finset.univ.filter fun σ : Equiv.Perm (Fin n) =>
          GlossaryConsistent p σ :=
        Finset.mem_filter.mpr ⟨Finset.mem_univ _, hcc.1, hcc.2.2⟩
      unfold glossaryTotal at hnone
      rw [Finset.card_eq_zero] at hnone
      rw [hnone] at hmem
      exact absurd hmem (Finset.not_mem_empty σ)
    subst htz
    have hz := enumerate_zero_matrix p henum
    subst hz
    refine ⟨henum, ?_, ?_⟩
    · intro i j
      simp [probabilitiesOf]
    · simp [probabilitiesOf]
  · intro t pc _ htpos
    constructor
    · simp [probabilitiesOf, htpos]
    · intro i j
      simp [probabilitiesOf, htpos]

/-- C3 (witness): the amended theorem on the §8 example (identity round, one
beam required). -/
theorem C3_witness :
    enumerate_consistent_matchings oneBeamProblem = some (0, zeroMatrix 2) ∧
      (probabilitiesOf 0 (zeroMatrix 2) 2).1 0 0 = 0 ∧
      (probabilitiesOf 0 (zeroMatrix 2) 2).2 = true := by
  obtain ⟨ha, hb, hc⟩ := (C3_amended oneBeamProblem (by decide)).1 (by decide)
  exact ⟨ha, hb 0 0, hc⟩

/-- C6: the engine's total is monotone non-increasing under added evidence —
removing one woman from one man's domain (the effect of one more no-match
record) never increases the total, and appending one round constraint never
increases the total. -/
theorem C6_monotone (p : Problem n) (i₀ j₀ : Fin n) (c : Ceremony n)
    {t : ℕ} {pc : List (List ℕ)} {t₁ : ℕ} {pc₁ : List (List ℕ)}
    {t₂ : ℕ} {pc₂ : List (List ℕ)}
    (h : enumerate_consistent_matchings p = some (t, pc))
    (h₁ : enumerate_consistent_matchings (removePair p i₀ j₀) = some (t₁, pc₁))
    (h₂ : enumerate_consistent_matchings (addCeremony p c) = some (t₂, pc₂)) :
    t₁ ≤ t ∧ t₂ ≤ t := by
  obtain ⟨ht, -⟩ := enumerate_eq_counts p h
  obtain ⟨ht₁, -⟩ := enumerate_eq_counts _ h₁
  obtain ⟨ht₂, -⟩ := enumerate_eq_counts _ h₂
  subst ht ht₁ ht₂
  constructor
  · refine Finset.card_le_card ?_
    intro σ hσ
    rcases Finset.mem_filter.mp hσ with ⟨-, hext, hall, hr⟩
    refine Finset.mem_filter.mpr ⟨Finset.mem_univ _, hext, ?_, hr⟩
    intro i hf
    have := hall i hf
    unfold removePair at this
    simp only [] at this
    split at this
    · cases this
    · exact this
  · refine Finset.card_le_card ?_
    intro σ hσ
    rcases Finset.mem_filter.mp hσ with ⟨-, hext, hall, hr⟩
    refine Finset.mem_filter.mpr ⟨Finset.mem_univ _, hext, hall, ?_⟩
    intro c' hc'
    exact hr c' (List.mem_append_left _ hc')

/-- C6 (witness): baseline total 2, after one exclusion 1, after one
identity-with-one-beam round 0. -/
theorem C6_witness : 1 ≤ 2 ∧ 0 ≤ 2 :=
  C6_monotone freeProblem 0 0 ⟨fun i j => i = j, 1⟩
    (by decide : enumerate_consistent_matchings freeProblem =
      some (2, [[1, 1], [1, 1]]))
    (by decide : enumerate_consistent_matchings (removePair freeProblem 0 0) =
      some (1, [[0, 1], [1, 0]]))
    (by decide : enumerate_consistent_matchings
      (addCeremony freeProblem ⟨fun i j => i = j, 1⟩) = some (0, [[0, 0], [0, 0]]))

/-- C9: the builder performs no range check on a round's required-correct
value — an arbitrary integer `b` (negative or exceeding n) is stored
unmodified in the built problem and construction succeeds — and the engine
returns total 0 for any problem containing a round whose required-correct
count lies outside [0, n]. -/
theorem C9_no_range_check (b : ℤ) (p : Problem n) {t : ℕ} {pc : List (List ℕ)}
    (h : enumerate_consistent_matchings p = some (t, pc))
    (hc : ∃ c ∈ p.ceremonies, c.beams < 0 ∨ (n : ℤ) < c.beams) :
    build_problem [simpleCer b] [] = .ok (simpleBuilt b) ∧ t = 0 := by
  refine ⟨rfl, ?_⟩
  obtain ⟨ht, -⟩ := enumerate_eq_counts p h
  rw [ht]
  unfold codeTotal
  rw [Finset.card_eq_zero, Finset.filter_eq_empty_iff]
  rintro σ - ⟨-, -, hr⟩
  rcases hc with ⟨c, hc, hbad⟩
  have hcard := hr c hc
  have h0 : (0 : ℤ) ≤ ((Finset.univ.filter fun i => c.matchups i (σ i) = true).card : ℤ) := by
    positivity
  have hn : ((Finset.univ.filter fun i => c.matchups i (σ i) = true).card : ℤ) ≤ (n : ℤ) := by
    have := Finset.card_filter_le Finset.univ fun i => c.matchups i (σ i) = true
    calc ((Finset.univ.filter fun i => c.matchups i (σ i) = true).card : ℤ)
        ≤ ((Finset.univ : Finset (Fin n)).card : ℤ) := by exact_mod_cast this
    _ = (n : ℤ) := by simp
  rcases hbad with hneg | hbig
  · rw [hcard] at h0
    exact absurd hneg (not_lt.mpr h0)
  · rw [hcard] at hn
    exact absurd hbig (not_lt.mpr hn)

/-- C9 (witness): beam count −7 stored unmodified; total 0 for a 1×1 problem
whose round requires 2 correct guesses. -/
theorem C9_witness :
    build_problem [simpleCer (-7)] [] = .ok (simpleBuilt (-7)) ∧ 0 = 0 :=
  C9_no_range_check (-7) hiBeamProblem
    (by decide : enumerate_consistent_matchings hiBeamProblem = some (0, [[0]]))
    (by decide)

/-- C10 (counterexample): on the `Problem` whose forced pair (0 → 0) lies
outside man 0's domain, `pair_counts[0][0]` is 1 although woman 0 is not in
man 0's domain.  The claim, read over every `Problem`, is false. -/
theorem C10_counterexample :
    outsideProblem.allowed 0 0 = false ∧
      enumerate_consistent_matchings outsideProblem = some (1, [[1]]) ∧
      mEntry [[1]] (0 : Fin 1) (0 : Fin 1) = 1 := by decide

/-- C10 (amended): for every Problem whose forced pairs lie inside their
domains (as every builder-produced Problem does), `pair_counts[i][j]` is 0
whenever woman j is not in man i's domain; and when man i is forced to woman
j and the total is positive, `pair_counts[i][j]` equals the total and every
other entry of row i is 0 — forced pairs get probability 1.0 and excluded
pairs 0.0. -/
theorem C10_amended (p : Problem n) (hdom : ForcedInDomain p)
    {t : ℕ} {pc : List (List ℕ)}
    (h : enumerate_consistent_matchings p = some (t, pc)) :
    (∀ i j, p.allowed i j = false → mEntry pc i j = 0) ∧
    (∀ i j, p.forced i = some j → 0 < t →
      mEntry pc i j = t ∧ ∀ j', j' ≠ j → mEntry pc i j' = 0) := by
  obtain ⟨ht, hpc⟩ := enumerate_eq_counts p h
  have hval : ∀ i j (σ : Equiv.Perm (Fin n)), CodeConsistent p σ → σ i = j →
      p.allowed i j = true := by
    intro i j σ hcc hij
    rcases hf : p.forced i with _ | j₀
    · rw [← hij]
      exact hcc.2.1 i hf
    · have := hcc.1 i j₀ hf
      rw [this] at hij
      rw [← hij]
      exact hdom i j₀ hf
  constructor
  · intro i j hfalse
    rw [hpc i j]
    unfold codePairCount
    rw [Finset.card_eq_zero, Finset.filter_eq_empty_iff]
    rintro σ - ⟨hcc, hij⟩
    rw [hval i j σ hcc hij] at hfalse
    cases hfalse
  · intro i j hf _
    constructor
    · rw [hpc i j, ht]
      unfold codePairCount codeTotal
      refine congrArg Finset.card (Finset.filter_congr fun σ _ => ?_)
      constructor
      · exact fun hcc => hcc.1
      · exact fun hcc => ⟨hcc, hcc.1 i j hf⟩
    · intro j' hne
      rw [hpc i j']
      unfold codePairCount
      rw [Finset.card_eq_zero, Finset.filter_eq_empty_iff]
      rintro σ - ⟨hcc, hij⟩
      exact hne (hij ▸ (hcc.1 i j hf) ▸ rfl)

/-- C10 (witness): in `mixProblem` (man 0 forced to woman 0, woman 0 excluded
for man 1) the excluded entry is 0, the forced entry equals the total 1 and
the rest of the forced row is 0. -/
theorem C10_witness :
    mEntry [[1, 0], [0, 1]] (1 : Fin 2) (0 : Fin 2) = 0 ∧
      mEntry [[1, 0], [0, 1]] (0 : Fin 2) (0 : Fin 2) = 1 ∧
      mEntry [[1, 0], [0, 1]] (0 : Fin 2) (1 : Fin 2) = 0 := by
  obtain ⟨h1, h2⟩ := C10_amended mixProblem (by decide)
    (by decide : enumerate_consistent_matchings mixProblem = some (1, [[1, 0], [0, 1]]))
  obtain ⟨ha, hb⟩ := h2 0 0 (by decide) (by decide)
  exact ⟨h1 1 0 (by decide), ha, hb 1 (by decide)⟩


/-! ## Builder helper lemmas -/

lemma getD_set (l : List ℕ) (i x j : ℕ) :
    (l.set i x).getD j 0 = if j = i ∧ i < l.length then x else l.getD j 0 := by
  rcases eq_or_ne j i with rfl | hne
  · by_cases h : j < l.length
    · simp [List.getD_eq_getElem?_getD, List.getElem?_set, h]
    · rw [List.set_eq_of_length_le (not_lt.mp h)]
      simp [h]
  · simp [List.getD_eq_getElem?_getD, List.getElem?_set, hne, Ne.symm hne]

lemma getD_out_of_range {l : List ℕ} {i : ℕ} (h : l.length ≤ i) :
    l.getD i 0 = 0 := by
  simp [List.getD_eq_getElem?_getD, List.getElem?_eq_none h]

lemma getD_replicate (nn v i : ℕ) :
    (List.replicate nn v).getD i 0 = if i < nn then v else 0 := by
  by_cases h : i < nn
  · simp [List.getD_eq_getElem?_getD, List.getElem?_replicate, h]
  · rw [getD_out_of_range (by simpa using not_lt.mp h)]
    simp [h]

lemma getD_map_range (nn : ℕ) (f : ℕ → ℕ) (i : ℕ) :
    ((List.range nn).map f).getD i 0 = if i < nn then f i else 0 := by
  by_cases h : i < nn
  · simp [List.getD_eq_getElem?_getD, List.getElem?_map, List.getElem?_range h, h]
  · rw [getD_out_of_range (by simpa using not_lt.mp h)]
    simp [h]

lemma one_shiftLeft_testBit (j k : ℕ) : (1 <<< j).testBit k = decide (j = k) := by
  rw [Nat.one_shiftLeft, Nat.testBit_two_pow]

lemma clearBit_testBit (a j k : ℕ) :
    (clearBit a j).testBit k = if k = j then false else a.testBit k := by
  unfold clearBit
  cases hj : a.testBit j with
  | false =>
    rw [if_neg (by simp [hj])]
    rcases eq_or_ne k j with rfl | hne
    · simp [hj]
    · simp [hne]
  | true =>
    rw [if_pos (by simp [hj]), Nat.testBit_xor, one_shiftLeft_testBit]
    rcases eq_or_ne k j with rfl | hne
    · simp [hj]
    · simp [hne, Ne.symm hne]

lemma land_shift_eq_zero_iff (a j : ℕ) :
    a &&& (1 <<< j) = 0 ↔ a.testBit j = false := by
  constructor
  · intro h
    have := congrArg (fun x => x.testBit j) h
    simp only [Nat.testBit_land, one_shiftLeft_testBit, Nat.zero_testBit,
      decide_eq_true_eq] at this
    simpa using this
  · intro h
    apply Nat.eq_of_testBit_eq
    intro k
    rw [Nat.testBit_land, one_shiftLeft_testBit, Nat.zero_testBit]
    rcases eq_or_ne j k with rfl | hne
    · simp [h]
    · simp [hne]

lemma one_shiftLeft_ne_zero (j : ℕ) : (1 <<< j) ≠ 0 := by
  rw [Nat.one_shiftLeft]
  exact pow_ne_zero j two_ne_zero

lemma nameIndex_lt {names : List String} {s : String} {i : ℕ}
    (h : nameIndex names s = some i) : i < names.length := by
  unfold nameIndex at h
  have hmem := List.mem_of_getLast?_eq_some h
  rw [List.mem_filter] at hmem
  exact List.mem_range.mp hmem.1

lemma lookupForced_mem {fp : List (ℕ × ℕ)} {i j : ℕ}
    (h : lookupForced fp i = some j) : (i, j) ∈ fp := by
  unfold lookupForced at h
  rcases Option.map_eq_some'.mp h with ⟨pr, hfind, hsnd⟩
  have hmem := List.mem_of_find?_eq_some hfind
  have hp := List.find?_some hfind
  rw [beq_iff_eq] at hp
  rcases pr with ⟨i', j'⟩
  cases hp
  cases hsnd
  exact hmem

lemma lookupForced_eq_none_iff {fp : List (ℕ × ℕ)} {i : ℕ} :
    lookupForced fp i = none ↔ ∀ j, (i, j) ∉ fp := by
  unfold lookupForced
  rw [Option.map_eq_none', List.find?_eq_none]
  constructor
  · intro h j hj
    exact h _ hj (by simp)
  · rintro h ⟨i', j'⟩ hmem hp
    rw [beq_iff_eq] at hp
    subst hp
    exact h j' hmem

lemma lookupForced_append_single (fp : List (ℕ × ℕ)) (i j i' : ℕ) :
    lookupForced (fp ++ [(i, j)]) i' =
      match lookupForced fp i' with
      | some j' => some j'
      | none => if i = i' then some j else none := by
  unfold lookupForced
  rw [List.find?_append]
  rcases hfind : List.find? (fun pr => pr.1 == i') fp with _ | pr
  · rw [hfind]
    simp only [Option.none_or, Option.map_none']
    by_cases hi : i = i'
    · simp [List.find?, hi]
    · simp only [List.find?, show (i == i') = false by simpa using hi]
      simp [hi]
  · rw [hfind]
    simp [Option.or]

lemma lookupForced_mem_of_nodup {fp : List (ℕ × ℕ)} {i j : ℕ}
    (hnd : (fp.map Prod.fst).Nodup) (hmem : (i, j) ∈ fp) :
    lookupForced fp i = some j := by
  induction fp with
  | nil => cases hmem
  | cons pr fp ih =>
    rcases pr with ⟨i₀, j₀⟩
    rw [List.map_cons, List.nodup_cons] at hnd
    rcases List.mem_cons.mp hmem with heq | htail
    · cases heq
      unfold lookupForced
      simp [List.find?]
    · have hne : i₀ ≠ i := by
        intro he
        exact hnd.1 (he ▸ (List.mem_map.mpr ⟨(i, j), htail, rfl⟩))
      unfold lookupForced
      simp only [List.find?, show ((i₀, j₀).1 == i) = false by simpa using hne]
      exact ih hnd.2 htail

lemma mem_keys_iff {fp : List (ℕ × ℕ)} {i : ℕ} :
    i ∈ fp.map Prod.fst ↔ ∃ j, (i, j) ∈ fp := by
  rw [List.mem_map]
  constructor
  · rintro ⟨⟨i', j⟩, hmem, rfl⟩
    exact ⟨j, hmem⟩
  · rintro ⟨j, hmem⟩
    exact ⟨(i, j), hmem, rfl⟩

lemma hasMatch_cons {men women : List String} {t : TruthObj} {ts : List TruthObj}
    {i j : ℕ} :
    HasMatch men women (t :: ts) i j ↔
      (MatchRec t ∧ nameIndex men (pyStrip t.man) = some i ∧
        nameIndex women (pyStrip t.woman) = some j) ∨ HasMatch men women ts i j := by
  unfold HasMatch
  constructor
  · rintro ⟨t', ht', hp⟩
    rcases List.mem_cons.mp ht' with rfl | ht'
    · exact Or.inl hp
    · exact Or.inr ⟨t', ht', hp⟩
  · rintro (hp | ⟨t', ht', hp⟩)
    · exact ⟨t, List.mem_cons_self t ts, hp⟩
    · exact ⟨t', List.mem_cons_of_mem t ht', hp⟩

lemma hasNoMatch_cons {men women : List String} {t : TruthObj} {ts : List TruthObj}
    {i j : ℕ} :
    HasNoMatch men women (t :: ts) i j ↔
      (NoMatchRec t ∧ nameIndex men (pyStrip t.man) = some i ∧
        nameIndex women (pyStrip t.woman) = some j) ∨ HasNoMatch men women ts i j := by
  unfold HasNoMatch
  constructor
  · rintro ⟨t', ht', hp⟩
    rcases List.mem_cons.mp ht' with rfl | ht'
    · exact Or.inl hp
    · exact Or.inr ⟨t', ht', hp⟩
  · rintro (hp | ⟨t', ht', hp⟩)
    · exact ⟨t, List.mem_cons_self t ts, hp⟩
    · exact ⟨t', List.mem_cons_of_mem t ht', hp⟩

/-- Success-direction characterization of the truth-booth loop: if no two
`match` records conflict (against each other or the already-recorded pairs),
the loop succeeds, the final bitmasks clear exactly the no-match bits and the
final forced list holds exactly the match records. -/
lemma applyBooths_ok (men women : List String) :
    ∀ (ts : List TruthObj) (allowed : List ℕ) (fp : List (ℕ × ℕ)),
    AllResolvable men women ts →
    (∀ t ∈ ts, ∀ i j, MatchRec t → nameIndex men (pyStrip t.man) = some i →
      nameIndex women (pyStrip t.woman) = some j →
      lookupForced fp i = none ∨ lookupForced fp i = some j) →
    ¬ConflictingMatches men women ts →
    ∃ allowed' fp',
      applyBooths men women ts allowed fp = .ok (allowed', fp') ∧
      allowed'.length = allowed.length ∧
      (∀ i k, ((allowed'.getD i 0).testBit k = true ↔
        (allowed.getD i 0).testBit k = true ∧ ¬HasNoMatch men women ts i k)) ∧
      (∀ i j, ((i, j) ∈ fp' ↔ (i, j) ∈ fp ∨ HasMatch men women ts i j)) ∧
      (∀ pr ∈ fp', pr ∈ fp ∨ (pr.1 < men.length ∧ pr.2 < women.length)) ∧
      ((fp.map Prod.fst).Nodup → (fp'.map Prod.fst).Nodup) := by
  intro ts
  induction ts with
  | nil =>
    intro allowed fp _ _ _
    refine ⟨allowed, fp, rfl, rfl, ?_, ?_, fun pr h => Or.inl h, id⟩
    · intro i k
      unfold HasNoMatch
      simp
    · intro i j
      unfold HasMatch
      simp
  | cons t ts ih =>
    intro allowed fp hres hfp hconf
    obtain ⟨hmi, hwi, hok⟩ := hres t (List.mem_cons_self t ts)
    rcases Option.isSome_iff_exists.mp hmi with ⟨i, hi⟩
    rcases Option.isSome_iff_exists.mp hwi with ⟨j, hj⟩
    have hres' : AllResolvable men women ts :=
      fun t' ht' => hres t' (List.mem_cons_of_mem t ht')
    have hconf' : ¬ConflictingMatches men women ts := by
      rintro ⟨t₁, h₁, t₂, h₂, hc⟩
      exact hconf ⟨t₁, List.mem_cons_of_mem t h₁, t₂, List.mem_cons_of_mem t h₂, hc⟩
    rcases hv : parse_truth_result t.result with e | v
    · rw [hv] at hok
      cases hok
    rcases v with _ | _
    · -- a `match` record
      have hmr : MatchRec t := hv
      rcases hlk : lookupForced fp i with _ | j'
      · -- brand new forced pair
        have hfp' : ∀ t' ∈ ts, ∀ i' j', MatchRec t' →
            nameIndex men (pyStrip t'.man) = some i' →
            nameIndex women (pyStrip t'.woman) = some j' →
            lookupForced (fp ++ [(i, j)]) i' = none ∨
              lookupForced (fp ++ [(i, j)]) i' = some j' := by
          intro t' ht' i' j' hmr' hmi' hwi'
          rw [lookupForced_append_single]
          rcases hlk' : lookupForced fp i' with _ | j''
          · by_cases hii : i = i'
            · subst hii
            
              have hww : nameIndex women (pyStrip t.woman) =
                  nameIndex women (pyStrip t'.woman) := by
                by_contra hne
                exact hconf ⟨t, List.mem_cons_self t ts, t',
                  List.mem_cons_of_mem t ht', hmr, hmr', by rw [hi, hmi'], hne⟩
              rw [hj, hwi'] at hww
              right
              rw [if_pos rfl]
              exact hww
            · left
              rw [if_neg hii]
          · rcases hfp t' (List.mem_cons_of_mem t ht') i' j' hmr' hmi' hwi' with
              hnone | hsome
            · rw [hlk'] at hnone
              cases hnone
            · rw [hlk'] at hsome
              right
              exact hsome
        obtain ⟨allowed', fp'', heq', hlen, hbits, hfpm, hbound, hnd⟩ :=
          ih allowed (fp ++ [(i, j)]) hres' hfp' hconf'
        refine ⟨allowed', fp'', ?_, hlen, ?_, ?_, ?_, ?_⟩
        · simp only [applyBooths, hi, hj, hv, hlk]
          exact heq'
        · intro i₀ k
          rw [hbits i₀ k, hasNoMatch_cons]
          have hnm : ¬NoMatchRec t := by
            intro hn
            unfold NoMatchRec at hn
            rw [hv] at hn
            cases hn
          simp [hnm]
        · intro i₀ j₀
          rw [hfpm i₀ j₀, hasMatch_cons, List.mem_append, List.mem_singleton,
            Prod.mk.injEq]
          constructor
          · rintro ((h | ⟨rfl, rfl⟩) | h)
            · exact Or.inl h
            · exact Or.inr (Or.inl ⟨hmr, hi, hj⟩)
            · exact Or.inr (Or.inr h)
          · rintro (h | (⟨-, hmi₀, hwi₀⟩ | h))
            · exact Or.inl (Or.inl h)
            · rw [hi] at hmi₀
              rw [hj] at hwi₀
              cases hmi₀
              cases hwi₀
              exact Or.inl (Or.inr ⟨rfl, rfl⟩)
            · exact Or.inr h
        · intro pr hpr
          rcases hbound pr hpr with h | h
          · rcases List.mem_append.mp h with h | h
            · exact Or.inl h
            · rw [List.mem_singleton] at h
              subst h
              exact Or.inr ⟨nameIndex_lt hi, nameIndex_lt hj⟩
          · exact Or.inr h
        · intro hnodup
          refine hnd ?_
          rw [List.map_append, List.map_cons, List.map_nil]
          rw [List.nodup_append]
          refine ⟨hnodup, List.nodup_singleton _, ?_⟩
          intro i₀ hi₀
          rw [mem_keys_iff] at hi₀
          rcases hi₀ with ⟨j₀, hj₀⟩
          simp only [List.mem_singleton]
          intro he
          subst he
          exact absurd hj₀ (lookupForced_eq_none_iff.mp hlk j₀)
      · -- the pair was already recorded: it must agree
        have hjj : j' = j := by
          rcases hfp t (List.mem_cons_self t ts) i j hmr hi hj with hnone | hsome
          · rw [hlk] at hnone
            cases hnone
          · rw [hlk] at hsome
            exact Option.some_injective _ hsome
        subst hjj
        obtain ⟨allowed', fp'', heq', hlen, hbits, hfpm, hbound, hnd⟩ :=
          ih allowed fp hres'
            (fun t' ht' i' j₀ hmr' hmi' hwi' =>
              hfp t' (List.mem_cons_of_mem t ht') i' j₀ hmr' hmi' hwi') hconf'
        refine ⟨allowed', fp'', ?_, hlen, ?_, ?_, hbound, hnd⟩
        · simp only [applyBooths, hi, hj, hv, hlk, if_neg (by simp : ¬j' ≠ j')]
          exact heq'
        · intro i₀ k
          rw [hbits i₀ k, hasNoMatch_cons]
          have hnm : ¬NoMatchRec t := by
            intro hn
            unfold NoMatchRec at hn
            rw [hv] at hn
            cases hn
          simp [hnm]
        · intro i₀ j₀
          rw [hfpm i₀ j₀, hasMatch_cons]
          constructor
          · rintro (h | h)
            · exact Or.inl h
            · exact Or.inr (Or.inr h)
          · rintro (h | (⟨-, hmi₀, hwi₀⟩ | h))
            · exact Or.inl h
            · rw [hi] at hmi₀
              rw [hj] at hwi₀
              cases hmi₀
              cases hwi₀
              exact Or.inl (lookupForced_mem hlk)
            · exact Or.inr h
    · -- a `no match` record
      have hnmr : NoMatchRec t := hv
      have hmr : ¬MatchRec t := by
        intro hm
        unfold MatchRec at hm
        rw [hv] at hm
        cases hm
      obtain ⟨allowed', fp'', heq', hlen, hbits, hfpm, hbound, hnd⟩ :=
        ih (allowed.set i (clearBit (allowed.getD i 0) j)) fp hres'
          (fun t' ht' i' j₀ hmr' hmi' hwi' =>
            hfp t' (List.mem_cons_of_mem t ht') i' j₀ hmr' hmi' hwi') hconf'
      refine ⟨allowed', fp'', ?_, ?_, ?_, ?_, hbound, hnd⟩
      · simp only [applyBooths, hi, hj, hv]
        exact heq'
      · rw [hlen, List.length_set]
      · intro i₀ k
        rw [hbits i₀ k, getD_set, hasNoMatch_cons]
        by_cases hii : i₀ = i
        · subst hii
          by_cases hlt : i₀ < allowed.length
          · rw [if_pos ⟨rfl, hlt⟩, clearBit_testBit]
            rcases eq_or_ne k j with rfl | hkj
            · rw [if_pos rfl]
              simp [hnmr, hi, hj]
            · rw [if_neg hkj]
              simp [hj, Ne.symm hkj]
          · rw [if_neg (fun hc => hlt hc.2)]
            have hz : allowed.getD i₀ 0 = 0 := getD_out_of_range (not_lt.mp hlt)
            rw [hz]
            simp [Nat.zero_testBit]
        · rw [if_neg (fun hc => hii hc.1)]
          have hne : i ≠ i₀ := fun h => hii h.symm
          simp [hi, hne]
      · intro i₀ j₀
        rw [hfpm i₀ j₀, hasMatch_cons]
        constructor
        · rintro (h | h)
          · exact Or.inl h
          · exact Or.inr (Or.inr h)
        · rintro (h | (⟨hm, -, -⟩ | h))
          · exact Or.inl h
          · exact absurd hm hmr
          · exact Or.inr h


/-- Splitting a conflicting-matches witness over `t :: ts`: either the
conflict lives in the tail, or the head is a `match` record and some tail
`match` record targets the head's man with a different woman. -/
lemma conflict_dispatch {men women : List String} {t : TruthObj}
    {ts : List TruthObj} {i j : ℕ} (hres' : AllResolvable men women ts)
    (hi : nameIndex men (pyStrip t.man) = some i)
    (hj : nameIndex women (pyStrip t.woman) = some j)
    (hcf : ConflictingMatches men women (t :: ts)) :
    ConflictingMatches men women ts ∨
      (MatchRec t ∧ ∃ t₂ ∈ ts, ∃ j₂, MatchRec t₂ ∧
        nameIndex men (pyStrip t₂.man) = some i ∧
        nameIndex women (pyStrip t₂.woman) = some j₂ ∧ j ≠ j₂) := by
  rcases hcf with ⟨t₁, ht₁, t₂, ht₂, hm₁, hm₂, hman, hwoman⟩
  rcases List.mem_cons.mp ht₁ with he₁ | ht₁
  · rcases List.mem_cons.mp ht₂ with he₂ | ht₂
    · rw [he₁, he₂] at hwoman
      exact absurd rfl hwoman
    · rw [he₁] at hm₁ hman hwoman
      obtain ⟨-, hwi₂, -⟩ := hres' t₂ ht₂
      rcases Option.isSome_iff_exists.mp hwi₂ with ⟨j₂, hj₂⟩
      refine Or.inr ⟨hm₁, t₂, ht₂, j₂, hm₂, by rw [← hman, hi], hj₂, ?_⟩
      intro he
      rw [hj, hj₂, he] at hwoman
      exact hwoman rfl
  · rcases List.mem_cons.mp ht₂ with he₂ | ht₂
    · rw [he₂] at hm₂ hman hwoman
      obtain ⟨-, hwi₁, -⟩ := hres' t₁ ht₁
      rcases Option.isSome_iff_exists.mp hwi₁ with ⟨j₁, hj₁⟩
      refine Or.inr ⟨hm₂, t₁, ht₁, j₁, hm₁, by rw [hman, hi], hj₁, ?_⟩
      intro he
      rw [hj₁, hj, he] at hwoman
      exact hwoman rfl
    · exact Or.inl ⟨t₁, ht₁, t₂, ht₂, hm₁, hm₂, hman, hwoman⟩

/-- Error-direction of the truth-booth loop: a conflicting `match` record
(against the recorded pairs or against another record) makes the loop fail. -/
lemma applyBooths_error (men women : List String) :
    ∀ (ts : List TruthObj) (allowed : List ℕ) (fp : List (ℕ × ℕ)),
    AllResolvable men women ts →
    ((∃ t ∈ ts, ∃ i j j', MatchRec t ∧ nameIndex men (pyStrip t.man) = some i ∧
        nameIndex women (pyStrip t.woman) = some j ∧
        lookupForced fp i = some j' ∧ j' ≠ j) ∨
      ConflictingMatches men women ts) →
    ∃ e, applyBooths men women ts allowed fp = .error e := by
  intro ts
  induction ts with
  | nil =>
    intro allowed fp _ hbad
    rcases hbad with ⟨t, ht, -⟩ | ⟨t, ht, -⟩
    · cases ht
    · cases ht
  | cons t ts ih =>
    intro allowed fp hres hbad
    obtain ⟨hmi, hwi, hok⟩ := hres t (List.mem_cons_self t ts)
    rcases Option.isSome_iff_exists.mp hmi with ⟨i, hi⟩
    rcases Option.isSome_iff_exists.mp hwi with ⟨j, hj⟩
    have hres' : AllResolvable men women ts :=
      fun t' ht' => hres t' (List.mem_cons_of_mem t ht')
    -- split the fp-conflict disjunct over the head
    have hfpsplit : ∀ (fp₀ : List (ℕ × ℕ)),
        (∃ t' ∈ t :: ts, ∃ i₁ j₁ j₁', MatchRec t' ∧
          nameIndex men (pyStrip t'.man) = some i₁ ∧
          nameIndex women (pyStrip t'.woman) = some j₁ ∧
          lookupForced fp₀ i₁ = some j₁' ∧ j₁' ≠ j₁) →
        (MatchRec t ∧ ∃ j', lookupForced fp₀ i = some j' ∧ j' ≠ j) ∨
        (∃ t' ∈ ts, ∃ i₁ j₁ j₁', MatchRec t' ∧
          nameIndex men (pyStrip t'.man) = some i₁ ∧
          nameIndex women (pyStrip t'.woman) = some j₁ ∧
          lookupForced fp₀ i₁ = some j₁' ∧ j₁' ≠ j₁) := by
      intro fp₀ ⟨t', ht', i₁, j₁, j₁', hm', hmi', hwi', hlk', hne⟩
      rcases List.mem_cons.mp ht' with he | ht'
      · rw [he] at hm' hmi' hwi'
        rw [hi] at hmi'
        cases hmi'
        rw [hj] at hwi'
        cases hwi'
        exact Or.inl ⟨hm', j₁', hlk', hne⟩
      · exact Or.inr ⟨t', ht', i₁, j₁, j₁', hm', hmi', hwi', hlk', hne⟩
    rcases hv : parse_truth_result t.result with e | v
    · rw [hv] at hok
      cases hok
    rcases v with _ | _
    · -- head is a `match` record
      rcases hlk : lookupForced fp i with _ | j'
      · -- head recorded into fp; push the conflict into the recursion
        have hbad' : (∃ t' ∈ ts, ∃ i₁ j₁ j₁', MatchRec t' ∧
            nameIndex men (pyStrip t'.man) = some i₁ ∧
            nameIndex women (pyStrip t'.woman) = some j₁ ∧
            lookupForced (fp ++ [(i, j)]) i₁ = some j₁' ∧ j₁' ≠ j₁) ∨
            ConflictingMatches men women ts := by
          rcases hbad with hfp₀ | hcf
          · rcases hfpsplit fp hfp₀ with ⟨-, j₀, hlk₀, -⟩ | htail
            · rw [hlk] at hlk₀
              cases hlk₀
            · rcases htail with ⟨t', ht', i₁, j₁, j₁', hm', hmi', hwi', hlk', hne⟩
              refine Or.inl ⟨t', ht', i₁, j₁, j₁', hm', hmi', hwi', ?_, hne⟩
              rw [lookupForced_append_single, hlk']
          · rcases conflict_dispatch hres' hi hj hcf with htail | ⟨-, t₂, ht₂, j₂, hm₂, hmi₂, hwi₂, hne⟩
            · exact Or.inr htail
            · refine Or.inl ⟨t₂, ht₂, i, j₂, j, hm₂, hmi₂, hwi₂, ?_, hne⟩
              rw [lookupForced_append_single, hlk, if_pos rfl]
        obtain ⟨e, he⟩ := ih allowed (fp ++ [(i, j)]) hres' hbad'
        refine ⟨e, ?_⟩
        simp only [applyBooths, hi, hj, hv, hlk]
        exact he
      · by_cases hjj : j' = j
        · subst hjj
          have hbad' : (∃ t' ∈ ts, ∃ i₁ j₁ j₁', MatchRec t' ∧
              nameIndex men (pyStrip t'.man) = some i₁ ∧
              nameIndex women (pyStrip t'.woman) = some j₁ ∧
              lookupForced fp i₁ = some j₁' ∧ j₁' ≠ j₁) ∨
              ConflictingMatches men women ts := by
            rcases hbad with hfp₀ | hcf
            · rcases hfpsplit fp hfp₀ with ⟨-, j₀, hlk₀, hne₀⟩ | htail
              · rw [hlk] at hlk₀
                cases hlk₀
                exact absurd rfl hne₀
              · exact Or.inl htail
            · rcases conflict_dispatch hres' hi hj hcf with htail | ⟨-, t₂, ht₂, j₂, hm₂, hmi₂, hwi₂, hne⟩
              · exact Or.inr htail
              · exact Or.inl ⟨t₂, ht₂, i, j₂, j', hm₂, hmi₂, hwi₂, hlk, hne⟩
          obtain ⟨e, he⟩ := ih allowed fp hres' hbad'
          refine ⟨e, ?_⟩
          simp only [applyBooths, hi, hj, hv, hlk, if_neg (by simp : ¬j' ≠ j')]
          exact he
        · refine ⟨"Conflicting forced matches", ?_⟩
          simp only [applyBooths, hi, hj, hv, hlk, if_pos hjj]
    · -- head is a `no match` record: conflicts persist untouched
      have hmr : ¬MatchRec t := by
        intro hm
        unfold MatchRec at hm
        rw [hv] at hm
        cases hm
      have hbad' : (∃ t' ∈ ts, ∃ i₁ j₁ j₁', MatchRec t' ∧
          nameIndex men (pyStrip t'.man) = some i₁ ∧
          nameIndex women (pyStrip t'.woman) = some j₁ ∧
          lookupForced fp i₁ = some j₁' ∧ j₁' ≠ j₁) ∨
          ConflictingMatches men women ts := by
        rcases hbad with hfp₀ | hcf
        · rcases hfpsplit fp hfp₀ with ⟨hm, -⟩ | htail
          · exact absurd hm hmr
          · exact Or.inl htail
        · rcases conflict_dispatch hres' hi hj hcf with htail | ⟨hm, -⟩
          · exact Or.inr htail
          · exact absurd hm hmr
      obtain ⟨e, he⟩ := ih (allowed.set i (clearBit (allowed.getD i 0) j)) fp
        hres' hbad'
      refine ⟨e, ?_⟩
      simp only [applyBooths, hi, hj, hv]
      exact he


/-- Success-direction characterization of the forced-pair folding: with no
forced pair excluded from its domain and no two forced pairs sharing a woman,
the fold succeeds, forced men end with singleton domains and every other
domain merely loses the forced women. -/
lemma applyForced_ok (nn : ℕ) (fpAll : List (ℕ × ℕ))
    (hscan : ¬∃ pr ∈ fpAll, ∃ pr' ∈ fpAll, pr.1 ≠ pr'.1 ∧ pr.2 = pr'.2) :
    ∀ (todo : List (ℕ × ℕ)) (allowed : List ℕ),
    (∀ pr ∈ todo, pr ∈ fpAll) →
    ((todo.map Prod.fst).Nodup) →
    (∀ pr ∈ todo, (allowed.getD pr.1 0).testBit pr.2 = true) →
    (∀ pr ∈ todo, pr.1 < allowed.length) →
    allowed.length = nn →
    ∃ allowed',
      applyForced nn fpAll todo allowed = .ok allowed' ∧
      allowed'.length = nn ∧
      (∀ pr ∈ todo, allowed'.getD pr.1 0 = 1 <<< pr.2) ∧
      (∀ i, i ∉ todo.map Prod.fst → ∀ k,
        ((allowed'.getD i 0).testBit k = true ↔
          (allowed.getD i 0).testBit k = true ∧ ¬∃ pr ∈ todo, pr.2 = k)) := by
  intro todo
  induction todo with
  | nil =>
    intro allowed _ _ _ _ hlen
    refine ⟨allowed, rfl, hlen, fun pr h => absurd h (List.not_mem_nil pr), ?_⟩
    intro i _ k
    simp
  | cons hd rest ih =>
    rcases hd with ⟨i, j⟩
    intro allowed hsub hnd hbit hlt hlen
    have hij_mem : (i, j) ∈ fpAll := hsub (i, j) (List.mem_cons_self _ _)
    have hbit_ij : (allowed.getD i 0).testBit j = true :=
      hbit _ (List.mem_cons_self _ _)
    have hi_lt : i < allowed.length := hlt _ (List.mem_cons_self _ _)
    have hchk : ¬((allowed.getD i 0) &&& (1 <<< j) = 0) := by
      rw [land_shift_eq_zero_iff, hbit_ij]
      simp
    have hscan' : ¬∃ pr' ∈ fpAll, pr'.1 ≠ i ∧ pr'.2 = j := by
      rintro ⟨pr', hpr', hne, hsame⟩
      exact hscan ⟨pr', hpr', (i, j), hij_mem, hne, hsame⟩
    rw [List.map_cons, List.nodup_cons] at hnd
    obtain ⟨hnotin, hnd'⟩ := hnd
    have heq : applyForced nn fpAll ((i, j) :: rest) allowed =
        applyForced nn fpAll rest ((List.range nn).map fun ii =>
          if ii ≠ i then clearBit ((allowed.set i (1 <<< j)).getD ii 0) j
          else (allowed.set i (1 <<< j)).getD ii 0) := by
      simp only [applyForced]
      rw [if_neg hchk, if_neg hscan']
    have hmid_getD : ∀ ii, (((List.range nn).map fun ii =>
        if ii ≠ i then clearBit ((allowed.set i (1 <<< j)).getD ii 0) j
        else (allowed.set i (1 <<< j)).getD ii 0).getD ii 0) =
        if ii < nn then
          (if ii ≠ i then clearBit (allowed.getD ii 0) j
            else if i < allowed.length then 1 <<< j else allowed.getD i 0)
        else 0 := by
      intro ii
      rw [getD_map_range]
      by_cases hii : ii < nn
      · rw [if_pos hii, if_pos hii]
        by_cases hne : ii ≠ i
        · rw [if_pos hne, if_pos hne, getD_set, if_neg (fun hc => hne hc.1)]
        · push_neg at hne
          subst hne
          rw [if_neg (by simp), if_neg (by simp), getD_set]
          by_cases hlt' : ii < allowed.length
          · rw [if_pos ⟨rfl, hlt'⟩, if_pos hlt']
          · rw [if_neg (fun hc => hlt' hc.2), if_neg hlt']
      · rw [if_neg hii, if_neg hii]
    have hrne : ∀ pr ∈ rest, pr.1 ≠ i := by
      intro pr hpr he
      exact hnotin (he ▸ List.mem_map.mpr ⟨pr, hpr, rfl⟩)
    have hjne : ∀ pr ∈ rest, pr.2 ≠ j := by
      intro pr hpr he
      exact hscan ⟨pr, hsub pr (List.mem_cons_of_mem _ hpr), (i, j), hij_mem,
        hrne pr hpr, he⟩
    obtain ⟨allowed', heq', hlen', hforced, hunforced⟩ :=
      ih ((List.range nn).map fun ii =>
          if ii ≠ i then clearBit ((allowed.set i (1 <<< j)).getD ii 0) j
          else (allowed.set i (1 <<< j)).getD ii 0)
        (fun pr hpr => hsub pr (List.mem_cons_of_mem _ hpr)) hnd'
        (by
          intro pr hpr
          rw [hmid_getD, if_pos (hlen ▸ hlt pr (List.mem_cons_of_mem _ hpr)),
            if_pos (hrne pr hpr), clearBit_testBit, if_neg (hjne pr hpr)]
          exact hbit pr (List.mem_cons_of_mem _ hpr))
        (by
          intro pr hpr
          rw [List.length_map, List.length_range]
          exact hlen ▸ hlt pr (List.mem_cons_of_mem _ hpr))
        (by rw [List.length_map, List.length_range])
    refine ⟨allowed', by rw [heq]; exact heq', hlen', ?_, ?_⟩
    · intro pr hpr
      rcases List.mem_cons.mp hpr with he | hpr
      · subst he
        apply Nat.eq_of_testBit_eq
        intro k
        have hiff := hunforced i hnotin k
        rw [hmid_getD, if_pos (hlen ▸ hi_lt), if_neg (by simp), if_pos hi_lt]
          at hiff
        rw [Bool.eq_iff_iff, hiff]
        constructor
        · rintro ⟨hb, -⟩
          exact hb
        · intro hb
          refine ⟨hb, ?_⟩
          rw [one_shiftLeft_testBit, decide_eq_true_eq] at hb
          subst hb
          rintro ⟨pr, hpr, hsame⟩
          exact hjne pr hpr hsame
      · exact hforced pr hpr
    · intro i₀ hnotin₀ k
      rw [List.map_cons] at hnotin₀
      have hne₀ : i₀ ≠ i := fun he => hnotin₀ (he ▸ List.mem_cons_self _ _)
      have hnr : i₀ ∉ rest.map Prod.fst :=
        fun h => hnotin₀ (List.mem_cons_of_mem _ h)
      have hiff := hunforced i₀ hnr k
      rw [hmid_getD] at hiff
      by_cases hlt₀ : i₀ < nn
      · rw [if_pos hlt₀, if_pos hne₀, clearBit_testBit] at hiff
        rw [hiff]
        rcases eq_or_ne k j with rfl | hkj
        · rw [if_pos rfl]
          constructor
          · rintro ⟨h, -⟩
            cases h
          · rintro ⟨-, hno⟩
            exact absurd ⟨(i, k), List.mem_cons_self _ _, rfl⟩ hno
        · rw [if_neg hkj]
          constructor
          · rintro ⟨hb, hno⟩
            refine ⟨hb, ?_⟩
            rintro ⟨pr, hpr, hsame⟩
            rcases List.mem_cons.mp hpr with he | hpr
            · rw [he] at hsame
              exact hkj hsame.symm
            · exact hno ⟨pr, hpr, hsame⟩
          · rintro ⟨hb, hno⟩
            exact ⟨hb, fun hh =>
              hno ⟨hh.choose, List.mem_cons_of_mem _ hh.choose_spec.1,
                hh.choose_spec.2⟩⟩
      · rw [if_neg hlt₀] at hiff
        rw [hiff]
        have hz : allowed.getD i₀ 0 = 0 :=
          getD_out_of_range (by rw [hlen]; exact not_lt.mp hlt₀)
        rw [hz]
        simp [Nat.zero_testBit]

/-- Error-direction of the forced-pair folding: a forced pair excluded from
its man's domain, or two forced pairs sharing a woman, make the fold fail. -/
lemma applyForced_error (nn : ℕ) (fpAll : List (ℕ × ℕ)) :
    ∀ (todo : List (ℕ × ℕ)) (allowed : List ℕ),
    (∃ pr ∈ todo, (allowed.getD pr.1 0).testBit pr.2 = false ∨
      ∃ pr' ∈ fpAll, pr'.1 ≠ pr.1 ∧ pr'.2 = pr.2) →
    ∃ e, applyForced nn fpAll todo allowed = .error e := by
  intro todo
  induction todo with
  | nil =>
    rintro allowed ⟨pr, hpr, -⟩
    cases hpr
  | cons hd rest ih =>
    rcases hd with ⟨i, j⟩
    intro allowed hbad
    by_cases hchk : (allowed.getD i 0) &&& (1 <<< j) = 0
    · refine ⟨"Forced pair contradicts a no-match", ?_⟩
      simp only [applyForced]
      rw [if_pos hchk]
    · by_cases hsc : ∃ pr' ∈ fpAll, pr'.1 ≠ i ∧ pr'.2 = j
      · refine ⟨"Two forced pairs use the same woman", ?_⟩
        simp only [applyForced]
        rw [if_neg hchk, if_pos hsc]
      · have hbit_ij : (allowed.getD i 0).testBit j = true := by
          rcases hb : (allowed.getD i 0).testBit j with _ | _
          · exact absurd ((land_shift_eq_zero_iff _ _).mpr hb) hchk
          · rfl
        have hmono : ∀ ii k, ((((List.range nn).map fun ii =>
            if ii ≠ i then clearBit ((allowed.set i (1 <<< j)).getD ii 0) j
            else (allowed.set i (1 <<< j)).getD ii 0).getD ii 0).testBit k = true) →
            (allowed.getD ii 0).testBit k = true := by
          intro ii k h
          rw [getD_map_range] at h
          by_cases hii : ii < nn
          · rw [if_pos hii] at h
            by_cases hne : ii ≠ i
            · rw [if_pos hne, getD_set, if_neg (fun hc => hne hc.1),
                clearBit_testBit] at h
              by_cases hkj : k = j
              · rw [if_pos hkj] at h
                cases h
              · rw [if_neg hkj] at h
                exact h
            · push_neg at hne
              subst hne
              rw [if_neg (by simp), getD_set] at h
              by_cases hlt' : ii < allowed.length
              · rw [if_pos ⟨rfl, hlt'⟩, one_shiftLeft_testBit,
                  decide_eq_true_eq] at h
                rw [← h]
                exact hbit_ij
              · rw [if_neg (fun hc => hlt' hc.2)] at h
                exact h
          · rw [if_neg hii] at h
            rw [Nat.zero_testBit] at h
            cases h
        rcases hbad with ⟨pr, hpr, hbadpr⟩
        rcases List.mem_cons.mp hpr with he | hpr
        · exfalso
          rw [he] at hbadpr
          rcases hbadpr with hb | hs
          · rw [hbit_ij] at hb
            cases hb
          · exact hsc hs
        · obtain ⟨e, he⟩ := ih ((List.range nn).map fun ii =>
            if ii ≠ i then clearBit ((allowed.set i (1 <<< j)).getD ii 0) j
            else (allowed.set i (1 <<< j)).getD ii 0)
            ⟨pr, hpr, by
              rcases hbadpr with hb | hs
              · left
                rcases hb' : ((((List.range nn).map fun ii =>
                    if ii ≠ i then clearBit ((allowed.set i (1 <<< j)).getD ii 0) j
                    else (allowed.set i (1 <<< j)).getD ii 0).getD pr.1 0).testBit
                    pr.2) with _ | _
                · rfl
                · rw [hmono pr.1 pr.2 hb'] at hb
                  cases hb
              · exact Or.inr hs⟩
          refine ⟨e, ?_⟩
          simp only [applyForced]
          rw [if_neg hchk, if_neg hsc]
          exact he

lemma except_error_iff_isOk_false {α : Type} (x : Except String α) :
    (∃ e, x = .error e) ↔ x.isOk = false := by
  cases x with
  | error e => simp [Except.isOk, Except.toBool]
  | ok a => simp [Except.isOk, Except.toBool]

/-- The oracle-evidence failure characterization of `build_problem`: with the
ceremony phase succeeding and every oracle record well formed, construction
fails exactly on a conflicting forced pair, a forced pair contradicting an
exclusion, two forced pairs sharing a woman, or an emptied domain. -/
lemma build_problem_error_iff (cers : List CeremonyObj) (truths : List TruthObj)
    (men women : List String) (rounds : List (List (List ℤ) × ℤ))
    (hcer : build_roster_and_rounds cers = .ok (men, women, rounds))
    (hlen : women.length = men.length)
    (hres : AllResolvable men women truths) :
    ((∃ e, build_problem cers truths = .error e) ↔
      (ConflictingMatches men women truths ∨ ForcedExcluded men women truths ∨
        SameWomanForced men women truths ∨ EmptiedDomain men women truths)) := by
  classical
  have hinit_bits : ∀ i k,
      (((List.replicate men.length ((1 <<< men.length) - 1)).getD i 0).testBit k
        = true ↔ i < men.length ∧ k < men.length) := by
    intro i k
    rw [getD_replicate]
    by_cases hi : i < men.length
    · rw [if_pos hi, Nat.one_shiftLeft, Nat.testBit_two_pow_sub_one]
      simp [hi]
    · rw [if_neg hi]
      simp [Nat.zero_testBit, hi]
  by_cases hP1 : ConflictingMatches men women truths
  · refine iff_of_true ?_ (Or.inl hP1)
    obtain ⟨e, he⟩ := applyBooths_error men women truths
      (List.replicate men.length ((1 <<< men.length) - 1)) [] hres (Or.inr hP1)
    refine ⟨e, ?_⟩
    simp only [build_problem, hcer, he]
  · have hfp_prem : ∀ t ∈ truths, ∀ i j, MatchRec t →
        nameIndex men (pyStrip t.man) = some i →
        nameIndex women (pyStrip t.woman) = some j →
        lookupForced [] i = none ∨ lookupForced [] i = some j :=
      fun _ _ _ _ _ _ _ => Or.inl rfl
    obtain ⟨allowed₁, fp, hbooths, hlen₁, hbits₁, hfpm₁, hbound₁, hnd₁⟩ :=
      applyBooths_ok men women truths
        (List.replicate men.length ((1 <<< men.length) - 1)) [] hres hfp_prem hP1
    rw [List.length_replicate] at hlen₁
    have hfp : ∀ i j, ((i, j) ∈ fp ↔ HasMatch men women truths i j) := by
      intro i j
      rw [hfpm₁ i j]
      simp
    have hnd : (fp.map Prod.fst).Nodup := hnd₁ (by simp)
    have hbound : ∀ pr ∈ fp, pr.1 < men.length ∧ pr.2 < men.length := by
      intro pr hpr
      rcases hbound₁ pr hpr with h | h
      · cases h
      · exact ⟨h.1, hlen ▸ h.2⟩
    have hbits : ∀ i k, ((allowed₁.getD i 0).testBit k = true ↔
        (i < men.length ∧ k < men.length) ∧
          ¬HasNoMatch men women truths i k) := by
      intro i k
      rw [hbits₁ i k, hinit_bits]
    have hP3_iff : SameWomanForced men women truths ↔
        ∃ pr ∈ fp, ∃ pr' ∈ fp, pr.1 ≠ pr'.1 ∧ pr.2 = pr'.2 := by
      constructor
      · rintro ⟨t, ht, t', ht', hm, hm', hman, hwoman⟩
        obtain ⟨hmi, hwi, -⟩ := hres t ht
        obtain ⟨hmi', hwi', -⟩ := hres t' ht'
        rcases Option.isSome_iff_exists.mp hmi with ⟨i, hi⟩
        rcases Option.isSome_iff_exists.mp hwi with ⟨j, hj⟩
        rcases Option.isSome_iff_exists.mp hmi' with ⟨i', hi'⟩
        rcases Option.isSome_iff_exists.mp hwi' with ⟨j', hj'⟩
        refine ⟨(i, j), (hfp i j).mpr ⟨t, ht, hm, hi, hj⟩,
          (i', j'), (hfp i' j').mpr ⟨t', ht', hm', hi', hj'⟩, ?_, ?_⟩
        · intro he
          rw [hi, hi'] at hman
          exact hman (congrArg some he)
        · rw [hj, hj'] at hwoman
          exact Option.some_injective _ hwoman
      · rintro ⟨⟨i, j⟩, hpr, ⟨i', j'⟩, hpr', hne, hsame⟩
        rcases (hfp i j).mp hpr with ⟨t, ht, hm, hi, hj⟩
        rcases (hfp i' j').mp hpr' with ⟨t', ht', hm', hi', hj'⟩
        refine ⟨t, ht, t', ht', hm, hm', ?_, ?_⟩
        · rw [hi, hi']
          exact fun h => hne (Option.some_injective _ h)
        · rw [hj, hj']
          simp only at hsame
          rw [hsame]
    have hP2_iff : ForcedExcluded men women truths ↔
        ∃ pr ∈ fp, HasNoMatch men women truths pr.1 pr.2 := by
      constructor
      · rintro ⟨t, ht, t', ht', hm, hnm', hman, hwoman⟩
        obtain ⟨hmi, hwi, -⟩ := hres t ht
        rcases Option.isSome_iff_exists.mp hmi with ⟨i, hi⟩
        rcases Option.isSome_iff_exists.mp hwi with ⟨j, hj⟩
        refine ⟨(i, j), (hfp i j).mpr ⟨t, ht, hm, hi, hj⟩,
          t', ht', hnm', ?_, ?_⟩
        · rw [← hman, hi]
        · rw [← hwoman, hj]
      · rintro ⟨⟨i, j⟩, hpr, t', ht', hnm', hmi', hwi'⟩
        rcases (hfp i j).mp hpr with ⟨t, ht, hm, hi, hj⟩
        exact ⟨t, ht, t', ht', hm, hnm', by rw [hi, hmi'], by rw [hj, hwi']⟩
    have hkeys_iff : ∀ i, (i ∈ fp.map Prod.fst ↔ HasMatchFor men truths i) := by
      intro i
      rw [mem_keys_iff]
      constructor
      · rintro ⟨j, hj⟩
        rcases (hfp i j).mp hj with ⟨t, ht, hm, hi, -⟩
        exact ⟨t, ht, hm, hi⟩
      · rintro ⟨t, ht, hm, hi⟩
        obtain ⟨-, hwi, -⟩ := hres t ht
        rcases Option.isSome_iff_exists.mp hwi with ⟨j, hj⟩
        exact ⟨j, (hfp i j).mpr ⟨t, ht, hm, hi, hj⟩⟩
    have htarget : ∀ k, ((∃ pr ∈ fp, pr.2 = k) ↔
        ∃ i' ∈ List.range men.length, HasMatch men women truths i' k) := by
      intro k
      constructor
      · rintro ⟨⟨i', j'⟩, hpr, hsame⟩
        simp only at hsame
        exact ⟨i', List.mem_range.mpr (hbound (i', j') hpr).1,
          hsame ▸ (hfp i' j').mp hpr⟩
      · rintro ⟨i', -, hm⟩
        exact ⟨(i', k), (hfp i' k).mpr hm, rfl⟩
    by_cases hP2 : ForcedExcluded men women truths
    · refine iff_of_true ?_ (Or.inr (Or.inl hP2))
      rcases hP2_iff.mp hP2 with ⟨pr, hpr, hnm⟩
      obtain ⟨e, he⟩ := applyForced_error men.length fp fp allowed₁
        ⟨pr, hpr, Or.inl (by
          rcases hb : (allowed₁.getD pr.1 0).testBit pr.2 with _ | _
          · rfl
          · exact absurd hnm ((hbits pr.1 pr.2).mp hb).2)⟩
      refine ⟨e, ?_⟩
      simp only [build_problem, hcer, hbooths, he]
    · by_cases hP3 : SameWomanForced men women truths
      · refine iff_of_true ?_ (Or.inr (Or.inr (Or.inl hP3)))
        rcases hP3_iff.mp hP3 with ⟨pr, hpr, pr', hpr', hne, hsame⟩
        obtain ⟨e, he⟩ := applyForced_error men.length fp fp allowed₁
          ⟨pr, hpr, Or.inr ⟨pr', hpr', fun h => hne h.symm, hsame.symm⟩⟩
        refine ⟨e, ?_⟩
        simp only [build_problem, hcer, hbooths, he]
      · have hscan : ¬∃ pr ∈ fp, ∃ pr' ∈ fp, pr.1 ≠ pr'.1 ∧ pr.2 = pr'.2 :=
          fun h => hP3 (hP3_iff.mpr h)
        obtain ⟨allowed₂, hfold, hlen₂, hforced₂, hunforced₂⟩ :=
          applyForced_ok men.length fp hscan fp allowed₁ (fun pr h => h) hnd
            (by
              intro pr hpr
              rw [hbits]
              exact ⟨hbound pr hpr, fun hnm => hP2 (hP2_iff.mpr ⟨pr, hpr, hnm⟩)⟩)
            (by
              intro pr hpr
              rw [hlen₁]
              exact (hbound pr hpr).1)
            hlen₁
        have hfinal_iff : (∃ i ∈ List.range men.length, allowed₂.getD i 0 = 0) ↔
            EmptiedDomain men women truths := by
          constructor
          · rintro ⟨i, hir, hzero⟩
            have hilt := List.mem_range.mp hir
            have hunf : i ∉ fp.map Prod.fst := by
              intro hkey
              rcases mem_keys_iff.mp hkey with ⟨j, hj⟩
              have := hforced₂ (i, j) hj
              simp only at this
              rw [this] at hzero
              exact one_shiftLeft_ne_zero j hzero
            refine ⟨i, hir, fun hmf => hunf ((hkeys_iff i).mpr hmf), ?_⟩
            intro k hkr
            have hklt := List.mem_range.mp hkr
            have hbit := hunforced₂ i hunf k
            rw [hzero, Nat.zero_testBit] at hbit
            have hfalse : ¬((allowed₁.getD i 0).testBit k = true ∧
                ¬∃ pr ∈ fp, pr.2 = k) := by
              intro hc
              exact absurd (hbit.mpr hc) (by simp)
            by_cases hnm : HasNoMatch men women truths i k
            · exact Or.inl hnm
            · right
              rw [← htarget k]
              by_contra hno
              exact hfalse ⟨(hbits i k).mpr ⟨⟨hilt, hklt⟩, hnm⟩, hno⟩
          · rintro ⟨i, hir, hnofor, hall⟩
            have hilt := List.mem_range.mp hir
            have hunf : i ∉ fp.map Prod.fst :=
              fun hkey => hnofor ((hkeys_iff i).mp hkey)
            refine ⟨i, hir, ?_⟩
            apply Nat.eq_of_testBit_eq
            intro k
            rw [Nat.zero_testBit]
            rcases hb : (allowed₂.getD i 0).testBit k with _ | _
            · rfl
            · exfalso
              have := (hunforced₂ i hunf k).mp hb
              rcases this with ⟨hb₁, hno⟩
              rcases (hbits i k).mp hb₁ with ⟨⟨-, hklt⟩, hnm⟩
              rcases hall k (List.mem_range.mpr hklt) with h | h
              · exact hnm h
              · exact hno ((htarget k).mpr h)
        constructor
        · rintro ⟨e, he⟩
          simp only [build_problem, hcer, hbooths, hfold] at he
          by_cases hc : ∃ i ∈ List.range men.length, allowed₂.getD i 0 = 0
          · exact Or.inr (Or.inr (Or.inr (hfinal_iff.mp hc)))
          · rw [if_neg hc] at he
            cases he
        · intro hP
          rcases hP with h | h | h | h
          · exact absurd h hP1
          · exact absurd h hP2
          · exact absurd h hP3
          · refine ⟨"No allowed options remain after truth-booth constraints", ?_⟩
            simp only [build_problem, hcer, hbooths, hfold]
            rw [if_pos (hfinal_iff.mpr h)]

/-- C4: the builder fails terminally, never returning a partial problem, in
each of these cases and no other oracle-evidence case: a conflicting second
`match` for the same man, a forced pair contradicted by a `no match` record,
two forced pairs targeting the same woman, or a man's domain emptied once
the forced pairs are folded in. -/
theorem C4_builder_failure_cases (cers : List CeremonyObj) (truths : List TruthObj)
    (men women : List String) (rounds : List (List (List ℤ) × ℤ))
    (hcer : build_roster_and_rounds cers = .ok (men, women, rounds))
    (hlen : women.length = men.length)
    (hres : AllResolvable men women truths) :
    ((∃ e, build_problem cers truths = .error e) ↔
      (ConflictingMatches men women truths ∨ ForcedExcluded men women truths ∨
        SameWomanForced men women truths ∨ EmptiedDomain men women truths)) :=
  build_problem_error_iff cers truths men women rounds hcer hlen hres

/-- Witness for C4 on a concrete two-couple instance whose oracle evidence
forces a pair and then contradicts it. -/
theorem C4_witness :
    build_roster_and_rounds [cer22]
        = .ok (["A", "B"], ["C", "D"], [([[1, 0], [0, 1]], 2)]) ∧
    (["C", "D"] : List String).length = (["A", "B"] : List String).length ∧
    AllResolvable ["A", "B"] ["C", "D"] truthsW ∧
    ((∃ e, build_problem [cer22] truthsW = .error e) ↔
      (ConflictingMatches ["A", "B"] ["C", "D"] truthsW ∨
        ForcedExcluded ["A", "B"] ["C", "D"] truthsW ∨
        SameWomanForced ["A", "B"] ["C", "D"] truthsW ∨
        EmptiedDomain ["A", "B"] ["C", "D"] truthsW)) :=
  ⟨rfl, by decide, by decide,
    C4_builder_failure_cases [cer22] truthsW ["A", "B"] ["C", "D"]
      [([[1, 0], [0, 1]], 2)] rfl (by decide) (by decide)⟩

/-- C5 counterexample: the code also accepts the spelling `nomatch`, which is
not among the spellings the spec lists, and maps it to the no-match verdict
instead of failing. -/
theorem C5_counterexample :
    parse_truth_result (.str "nomatch") = .ok .noMatch ∧
    ("nomatch" : String) ∉ (["no match", "false", "no", "0"] : List String) := by
  exact ⟨rfl, by decide⟩

/-- C5 (amended): verdict parsing maps exactly the case-insensitive spellings
match/true/yes/1 (and any true boolean or nonzero integer) to the match
verdict, exactly the spellings no match/nomatch/false/no/0 (and false or
zero) to the no-match verdict, and errors on every other input. -/
theorem C5_amended :
    (∀ s, (parse_truth_result (.str s) = .ok .matched ↔
        pyLower (pyStrip s) ∈ (["match", "true", "yes", "1"] : List String)) ∧
      (parse_truth_result (.str s) = .ok .noMatch ↔
        pyLower (pyStrip s) ∈
          (["no match", "nomatch", "false", "no", "0"] : List String)) ∧
      ((∃ e, parse_truth_result (.str s) = .error e) ↔
        pyLower (pyStrip s) ∉ (["match", "true", "yes", "1"] : List String) ∧
        pyLower (pyStrip s) ∉
          (["no match", "nomatch", "false", "no", "0"] : List String))) ∧
    (∀ i : ℤ, (parse_truth_result (.int i) = .ok .matched ↔ i ≠ 0) ∧
      (parse_truth_result (.int i) = .ok .noMatch ↔ i = 0)) ∧
    (∀ b : Bool, (parse_truth_result (.bool b) = .ok .matched ↔ b = true) ∧
      (parse_truth_result (.bool b) = .ok .noMatch ↔ b = false)) ∧
    (∃ e, parse_truth_result PyVal.other = .error e) := by
  refine ⟨?_, ?_, ?_, ?_⟩
  · intro s
    have hd : pyLower (pyStrip s) ∈
          (["no match", "nomatch", "false", "no", "0"] : List String) →
        pyLower (pyStrip s) ∉ (["match", "true", "yes", "1"] : List String) := by
      intro hx
      simp only [List.mem_cons, List.not_mem_nil, or_false] at hx
      rcases hx with h | h | h | h | h <;> rw [h] <;> decide
    by_cases h1 : pyLower (pyStrip s) ∈ (["match", "true", "yes", "1"] : List String)
    · refine ⟨iff_of_true (by simp [parse_truth_result, h1]) h1, ?_, ?_⟩
      · exact iff_of_false (by simp [parse_truth_result, h1]) fun h2 => hd h2 h1
      · refine iff_of_false ?_ fun hc => hc.1 h1
        rintro ⟨e, he⟩
        simp [parse_truth_result, h1] at he
    · by_cases h2 : pyLower (pyStrip s) ∈
          (["no match", "nomatch", "false", "no", "0"] : List String)
      · refine ⟨iff_of_false (by simp [parse_truth_result, h1, h2]) h1,
          iff_of_true (by simp [parse_truth_result, h1, h2]) h2, ?_⟩
        refine iff_of_false ?_ fun hc => hc.2 h2
        rintro ⟨e, he⟩
        simp [parse_truth_result, h1, h2] at he
      · exact ⟨iff_of_false (by simp [parse_truth_result, h1, h2]) h1,
          iff_of_false (by simp [parse_truth_result, h1, h2]) h2,
          iff_of_true ⟨"Unrecognized truth booth result",
            by simp [parse_truth_result, h1, h2]⟩ ⟨h1, h2⟩⟩
  · intro i
    by_cases hi : i = 0
    · subst hi
      exact ⟨iff_of_false (by simp [parse_truth_result]) (by simp),
        iff_of_true (by simp [parse_truth_result]) rfl⟩
    · exact ⟨iff_of_true (by simp [parse_truth_result, hi]) hi,
        iff_of_false (by simp [parse_truth_result, hi]) hi⟩
  · intro b
    cases b
    · exact ⟨iff_of_false (by simp [parse_truth_result]) (by simp),
        iff_of_true (by simp [parse_truth_result]) rfl⟩
    · exact ⟨iff_of_true (by simp [parse_truth_result]) rfl,
        iff_of_false (by simp [parse_truth_result]) (by simp)⟩
  · exact ⟨"Unrecognized truth booth result", rfl⟩

/-- C8 counterexample: with no ceremony evidence but oracle evidence present,
the computation does not establish a roster from the oracle names — it fails
with the missing-ceremony error. -/
theorem C8_counterexample :
    compute_probabilities [] [⟨"A", "B", PyVal.str "match"⟩]
      = .error "Need at least one ceremony to define the roster." := rfl

/-- C8 (amended): with no ceremony evidence the computation always fails —
with the no-input error when the oracle evidence is also absent, and with the
missing-roster error otherwise. -/
theorem C8_amended (truth_objs : List TruthObj) :
    ∃ e, compute_probabilities [] truth_objs = .error e := by
  by_cases h : truth_objs = []
  · subst h
    exact ⟨"No input files found.", rfl⟩
  · refine ⟨"Need at least one ceremony to define the roster.", ?_⟩
    simp only [compute_probabilities]
    rw [if_neg (by simp [h])]
    rfl

/-- When every man is forced and no two forced pairs collide, the code-sense
count is 1 or 0 according to whether the forced assignment meets every
ceremony's beam count. -/
lemma codeTotal_all_forced (p : Problem n)
    (hall : ∀ i, (p.forced i).isSome = true) (hnc : ¬forcedCollision p) :
    codeTotal p = if ForcedSatisfiesRounds p then 1 else 0 := by
  classical
  have hfeq : ∀ i, p.forced i = some ((p.forced i).get (hall i)) :=
    fun i => (Option.some_get (hall i)).symm
  have hinj : Function.Injective fun i => (p.forced i).get (hall i) := by
    intro i i' hii
    by_contra hne
    exact hnc ⟨i, i', hne, (p.forced i).get (hall i), hfeq i,
      (hfeq i').trans (congrArg some hii.symm)⟩
  have hbij := Finite.injective_iff_bijective.mp hinj
  set σF : Equiv.Perm (Fin n) := Equiv.ofBijective _ hbij with hσ
  have hσF : ∀ i, σF i = (p.forced i).get (hall i) := fun i => rfl
  have hext : ∀ σ : Equiv.Perm (Fin n), ExtendsForced p σ ↔ σ = σF := by
    intro σ
    constructor
    · intro h
      apply Equiv.ext
      intro i
      exact h i ((p.forced i).get (hall i)) (hfeq i)
    · rintro rfl i j hj
      exact Option.some_injective _ ((hfeq i).symm.trans hj)
  have hrounds : RoundsExact p σF ↔ ForcedSatisfiesRounds p := by
    have hcard : ∀ c : Ceremony n, assignedHits p.forced c =
        ((Finset.univ.filter fun i => c.matchups i (σF i) = true).card : ℤ) := by
      intro c
      unfold assignedHits
      congr 2
      apply Finset.filter_congr
      intro i _
      constructor
      · rintro ⟨j, hj, hm⟩
        have : (p.forced i).get (hall i) = j :=
          Option.some_injective _ ((hfeq i).symm.trans hj)
        rw [hσF i, this]
        exact hm
      · intro hm
        exact ⟨(p.forced i).get (hall i), hfeq i, hm⟩
    constructor
    · intro h c hc
      rw [hcard c]
      exact h c hc
    · intro h c hc
      rw [← hcard c]
      exact h c hc
  have hcc : ∀ σ, CodeConsistent p σ ↔ (σ = σF ∧ ForcedSatisfiesRounds p) := by
    intro σ
    constructor
    · rintro ⟨he, -, hr⟩
      have hs := (hext σ).mp he
      subst hs
      exact ⟨rfl, hrounds.mp hr⟩
    · rintro ⟨rfl, hr⟩
      refine ⟨(hext σF).mpr rfl, ?_, hrounds.mpr hr⟩
      intro i hnone
      rw [hfeq i] at hnone
      cases hnone
  unfold codeTotal
  by_cases hfs : ForcedSatisfiesRounds p
  · rw [if_pos hfs]
    have hset : (Finset.univ.filter fun σ : Equiv.Perm (Fin n) =>
        CodeConsistent p σ) = {σF} := by
      ext σ
      simp [Finset.mem_filter, hcc, hfs]
    rw [hset, Finset.card_singleton]
  · rw [if_neg hfs]
    have hset : (Finset.univ.filter fun σ : Equiv.Perm (Fin n) =>
        CodeConsistent p σ) = ∅ := by
      ext σ
      simp [Finset.mem_filter, hcc, hfs]
    rw [hset, Finset.card_empty]

/-- C7 counterexample: a problem in which every man is forced, the forced
pairs are injective and inside every domain, yet the returned total is 0, not
1 — the forced assignment violates the ceremony's beam count. -/
theorem C7_counterexample :
    (∀ i, (beamsProblem.forced i).isSome = true) ∧
    ¬forcedCollision beamsProblem ∧ ForcedInDomain beamsProblem ∧
    enumerate_consistent_matchings beamsProblem = some (0, [[0]]) := by
  decide

/-- C7 (amended): when every man is forced and no two forced pairs collide,
the returned total is 1 exactly when the forced assignment meets every
ceremony's beam count, and 0 otherwise; and a forced pair contradicted by an
exclusion or two forced pairs sharing a woman make the builder fail before
any search runs. -/
theorem C7_amended :
    (∀ (n : ℕ) (p : Problem n), (∀ i, (p.forced i).isSome = true) →
      ¬forcedCollision p → ∀ (t : ℕ) (pc : List (List ℕ)),
        enumerate_consistent_matchings p = some (t, pc) →
        t = if ForcedSatisfiesRounds p then 1 else 0) ∧
    (∀ (cers : List CeremonyObj) (truths : List TruthObj)
        (men women : List String) (rounds : List (List (List ℤ) × ℤ)),
      build_roster_and_rounds cers = .ok (men, women, rounds) →
      women.length = men.length → AllResolvable men women truths →
      (ForcedExcluded men women truths ∨ SameWomanForced men women truths) →
      ∃ e, build_problem cers truths = .error e) := by
  constructor
  · intro n p hall hnc t pc h
    rw [(enumerate_eq_counts p h).1]
    exact codeTotal_all_forced p hall hnc
  · intro cers truths men women rounds hcer hlen hres hbad
    exact (build_problem_error_iff cers truths men women rounds hcer hlen hres).mpr
      (Or.inr (hbad.imp id Or.inl))

/-- Witness for C7: the all-forced beam-violating problem returns total 0
matching the amended count, and a contradicted forced pair makes the builder
fail on a concrete input. -/
theorem C7_witness :
    ((∀ i, (beamsProblem.forced i).isSome = true) ∧ ¬forcedCollision beamsProblem ∧
      enumerate_consistent_matchings beamsProblem = some (0, [[0]]) ∧
      0 = if ForcedSatisfiesRounds beamsProblem then 1 else 0) ∧
    (build_roster_and_rounds [cer22]
        = .ok (["A", "B"], ["C", "D"], [([[1, 0], [0, 1]], 2)]) ∧
      (["C", "D"] : List String).length = (["A", "B"] : List String).length ∧
      AllResolvable ["A", "B"] ["C", "D"] truthsW ∧
      ForcedExcluded ["A", "B"] ["C", "D"] truthsW ∧
      ∃ e, build_problem [cer22] truthsW = .error e) :=
  ⟨⟨by decide, by decide, by decide,
      C7_amended.1 1 beamsProblem (by decide) (by decide) 0 [[0]] (by decide)⟩,
    rfl, by decide, by decide, by decide,
    C7_amended.2 [cer22] truthsW ["A", "B"] ["C", "D"] [([[1, 0], [0, 1]], 2)]
      rfl (by decide) (by decide) (Or.inl (by decide))⟩

-- sanity checks on tiny instances
example :
    enumerate_consistent_matchings
      (⟨[], fun _ _ => true, fun _ => none⟩ : Problem 2)
      = some (2, [[1, 1], [1, 1]]) := by decide

example :
    enumerate_consistent_matchings
      (⟨[⟨fun i j => i = j, 1⟩], fun _ _ => true, fun _ => none⟩ : Problem 2)
      = some (0, [[0, 0], [0, 0]]) := by decide

example :
    enumerate_consistent_matchings
      (⟨[], fun i j => ¬(i = 0 ∧ j = 0), fun _ => none⟩ : Problem 2)
      = some (1, [[0, 1], [1, 0]]) := by decide

example :
    enumerate_consistent_matchings
      (⟨[⟨fun i j => i = j, 2⟩], fun _ _ => true, fun _ => none⟩ : Problem 3)
      = some (0, [[0, 0, 0], [0, 0, 0], [0, 0, 0]]) := by decide

example :
    enumerate_consistent_matchings
      (⟨[⟨fun i j => i = j, 1⟩], fun _ _ => true, fun _ => none⟩ : Problem 3)
      = some (3, [[1, 1, 1], [1, 1, 1], [1, 1, 1]]) := by decide

end AYT
